import Mathlib

/-!
Verification of kibotu/git-history-timeline against its specification.

The development shallowly embeds the core of the repository:
`src/aggregate.js` (aggregateCommits, getContributionLevel,
generateYearCalendar), the calendar pipeline call in `src/render.js`,
and the acquisition engine of `src/fetch.js` (githubFetch,
searchCommitsByAuthor, fetchAllCommits).

Modelling conventions:
* JavaScript numbers holding integers are embedded as `Nat`/`Int`
  (all values reachable here are far below 2^53, where JS doubles are
  exact).
* A UTC calendar date ("YYYY-MM-DD" key produced by
  `toISOString().split('T')[0]`) is embedded as its day number: days
  since 1970-01-01 (the engine's internal representation; the ISO date
  string and the day number determine each other bijectively).
* JavaScript objects used as string-keyed dictionaries are embedded as
  association lists, preserving JS key-insertion-order semantics
  (updating an existing key keeps its position; a new key is appended).
* Asynchronous code is single-threaded cooperative (every mutation of
  the shared maps completes between suspension points), so runs are
  modelled as sequential folds; `fetch` is modelled by an oracle that
  scripts the response of every endpoint.
-/

namespace GitTimeline

/-! ## Contribution levels — src/aggregate.js lines 57-73

`getContributionLevel(count, maxDaily)`.  The source compares the
floating-point ratio `count / maxDaily` against 0.75 / 0.5 / 0.25; for
integer `count`, `maxDaily` with `maxDaily < 2^52` the IEEE-754 double
comparison coincides with the exact rational comparison embedded here
(`ratio ≥ 3/4 ↔ 4*count ≥ 3*maxDaily`, and likewise for 1/2 and 1/4),
so the embedding is exact on the whole reachable range. -/

def getContributionLevel (count maxDaily : Nat) : Nat :=
  if count = 0 then 0
  else if maxDaily ≤ 4 then
    -- low-activity branch: absolute thresholds
    if count ≥ 4 then 4
    else if count ≥ 3 then 3
    else if count ≥ 2 then 2
    else 1
  else
    -- active branch: ratio = count / maxDaily against 0.75, 0.5, 0.25
    if 4 * count ≥ 3 * maxDaily then 4
    else if 2 * count ≥ maxDaily then 3
    else if 4 * count ≥ maxDaily then 2
    else 1

/-- C6: count 0 gives level 0; with maxDaily ≤ 4 counts 1,2,3 give levels
1,2,3 and counts ≥ 4 give level 4; with maxDaily ≥ 5 the ratio
count/maxDaily selects the band 4 (ratio ≥ 3/4), 3 (ratio ≥ 1/2),
2 (ratio ≥ 1/4) or 1 (any smaller positive ratio), every threshold
inclusive at the lower bound of its band. -/
theorem contributionLevel_bands (count maxDaily : Nat) :
    (count = 0 → getContributionLevel count maxDaily = 0) ∧
    (maxDaily ≤ 4 →
      (count = 1 → getContributionLevel count maxDaily = 1) ∧
      (count = 2 → getContributionLevel count maxDaily = 2) ∧
      (count = 3 → getContributionLevel count maxDaily = 3) ∧
      (count ≥ 4 → getContributionLevel count maxDaily = 4)) ∧
    (5 ≤ maxDaily → 1 ≤ count →
      (4 * count ≥ 3 * maxDaily → getContributionLevel count maxDaily = 4) ∧
      (4 * count < 3 * maxDaily → 2 * count ≥ maxDaily →
        getContributionLevel count maxDaily = 3) ∧
      (2 * count < maxDaily → 4 * count ≥ maxDaily →
        getContributionLevel count maxDaily = 2) ∧
      (4 * count < maxDaily → getContributionLevel count maxDaily = 1)) := by
  refine ⟨?_, fun hm => ⟨?_, ?_, ?_, ?_⟩, fun hm hc => ⟨?_, ?_, ?_, ?_⟩⟩ <;>
    intros <;> unfold getContributionLevel <;> split_ifs <;> omega

/-- Closed instance of `contributionLevel_bands`: at count 3, maxDaily 4
the low-activity branch yields level 3. -/
theorem contributionLevel_bands_witness :
    (3 : Nat) = 3 → getContributionLevel 3 4 = 3 :=
  ((contributionLevel_bands 3 4).2.1 (by decide)).2.2.1

/-! ## UTC day arithmetic

JavaScript `Date` semantics (ECMA-262, proleptic Gregorian calendar in
UTC).  A time value is milliseconds since the epoch; its day number is
`floor(t / msPerDay)`; `getUTCDay` of day `z` is `(z + 4) mod 7`
(day 0, 1970-01-01, was a Thursday).  `dayFromYear` is ECMA-262's
`DayFromYear`.  `yearFromDay` computes ECMA-262's `YearFromTime` (the
unique `y` with `DayFromYear(y) ≤ z < DayFromYear(y+1)`) by a linear
guess corrected by at most one year in each direction; the theorems
`dayFromYear_yearFromDay_le` and `lt_dayFromYear_yearFromDay_succ`
prove it meets that defining property, for every day number. -/

def msPerDay : Int := 86400000

/-- Day number of a UTC timestamp in ms (floor division, as in JS). -/
def dayOfTimestamp (t : Int) : Int := t / msPerDay

/-- ECMA-262 DayFromYear: the day number of January 1 of year `y`. -/
def dayFromYear (y : Int) : Int :=
  365 * (y - 1970) + (y - 1969) / 4 - (y - 1901) / 100 + (y - 1601) / 400

/-- Gregorian leap-year rule (ECMA-262 DaysInYear). -/
def isLeapYear (y : Int) : Bool :=
  (y % 4 = 0 && y % 100 != 0) || y % 400 = 0

/-- ECMA-262 YearFromTime at day granularity. -/
def yearFromDay (z : Int) : Int :=
  let y0 := 1970 + 400 * z / 146097
  let y1 := if z < dayFromYear y0 then y0 - 1 else y0
  if dayFromYear (y1 + 1) ≤ z then y1 + 1 else y1

/-- ECMA-262 WeekDay: 0 = Sunday … 6 = Saturday. -/
def dayOfWeek (z : Int) : Int := (z + 4) % 7

theorem dayFromYear_succ (y : Int) :
    dayFromYear (y + 1) = dayFromYear y + (if isLeapYear y then 366 else 365) := by
  unfold dayFromYear isLeapYear
  split_ifs <;> simp_all <;> omega

theorem dayFromYear_mono {y y' : Int} (h : y ≤ y') :
    dayFromYear y ≤ dayFromYear y' := by
  unfold dayFromYear
  omega

theorem dayFromYear_yearFromDay_le (z : Int) :
    dayFromYear (yearFromDay z) ≤ z := by
  simp only [dayFromYear, yearFromDay]
  split_ifs <;> omega

theorem lt_dayFromYear_yearFromDay_succ (z : Int) :
    z < dayFromYear (yearFromDay z + 1) := by
  simp only [dayFromYear, yearFromDay]
  split_ifs <;> omega

theorem yearFromDay_eq_iff {y z : Int} :
    yearFromDay z = y ↔ dayFromYear y ≤ z ∧ z < dayFromYear (y + 1) := by
  constructor
  · rintro rfl
    exact ⟨dayFromYear_yearFromDay_le z, lt_dayFromYear_yearFromDay_succ z⟩
  · rintro ⟨h₁, h₂⟩
    rcases lt_trichotomy (yearFromDay z) y with h | h | h
    · have := dayFromYear_mono (by omega : yearFromDay z + 1 ≤ y)
      have := lt_dayFromYear_yearFromDay_succ z
      omega
    · exact h
    · have := dayFromYear_mono (by omega : y + 1 ≤ yearFromDay z)
      have := dayFromYear_yearFromDay_le z
      omega

theorem lt_yearFromDay_iff {y z : Int} :
    y < yearFromDay z ↔ dayFromYear (y + 1) ≤ z := by
  constructor
  · intro h
    exact le_trans (dayFromYear_mono (by omega)) (dayFromYear_yearFromDay_le z)
  · intro h
    by_contra hc
    have := dayFromYear_mono (by omega : yearFromDay z + 1 ≤ y + 1)
    have := lt_dayFromYear_yearFromDay_succ z
    omega

theorem dayOfWeek_bounds (z : Int) : 0 ≤ dayOfWeek z ∧ dayOfWeek z < 7 := by
  unfold dayOfWeek
  omega

/-! ## Calendar grid — src/aggregate.js lines 79-121

`generateYearCalendar(year, byYear, maxDaily)`.  The `byYear` parameter
is embedded as a total function `Int → Int → Nat`: `byYear y d` models
`(byYear[y] || {})[dateKey(d)] || 0` (absent keys read as 0, exactly
the two `||` defaults the source applies).  The year key is an `Int`
(the source passes the 4-digit year string and `parseInt`s it; the
embedding is exact for years 100–9999, which covers every date a
GitHub commit can carry; the legacy ECMA-262 two-digit-year remapping
of `Date.UTC` is outside the modelled range).  The source's `while`
loop runs at most 54 iterations (54 weeks cover any year plus its
leading padding); `calLoop` embeds it with fuel 60, a strict upper
bound, and `generateYearCalendar_eq_weeks` proves the fuel is never
exhausted by computing the loop's closed form. -/

structure DayCell where
  date : Int
  count : Nat
  level : Int
  inYear : Bool
deriving DecidableEq, Repr

/-- One day cell of the grid (loop body, src/aggregate.js lines 96-110). -/
def calCell (year : Int) (yearData : Int → Nat) (maxDaily : Nat) (d : Int) : DayCell :=
  let inYear := yearFromDay d = year
  let count := if inYear then yearData d else 0
  { date := d
    count := count
    level := if inYear then (getContributionLevel count maxDaily : Int) else -1
    inYear := inYear }

/-- One week: the inner `for (day = 0; day < 7; day++)` loop. -/
def calWeek (year : Int) (yearData : Int → Nat) (maxDaily : Nat) (cur : Int) :
    List DayCell :=
  (List.range 7).map (fun j : Nat => calCell year yearData maxDaily (cur + (j : Int)))

/-- The outer `while` loop (condition, week push, year-overrun break). -/
def calLoop (year : Int) (yearData : Int → Nat) (maxDaily : Nat) (endD : Int) :
    Nat → Int → List (List DayCell)
  | 0, _ => []
  | fuel + 1, cur =>
    if cur ≤ endD ∨ dayOfWeek cur ≠ 0 then
      let w := calWeek year yearData maxDaily cur
      if year < yearFromDay (cur + 7) then [w]
      else w :: calLoop year yearData maxDaily endD fuel (cur + 7)
    else []

/-- `generateYearCalendar`: start at Jan 1 moved back to its Sunday,
end at Dec 31 (`Date.UTC(year, 11, 31)` = day 334 + leap + 30 of the
year), loop week by week. -/
def generateYearCalendar (year : Int) (byYear : Int → Int → Nat) (maxDaily : Nat) :
    List (List DayCell) :=
  let yearData := byYear year
  let jan1 := dayFromYear year
  let startD := jan1 - dayOfWeek jan1
  let endD := jan1 + 334 + (if isLeapYear year then 1 else 0) + 30
  calLoop year yearData maxDaily endD 60 startD

/-- First grid day: the Sunday on or before January 1. -/
def calendarStart (year : Int) : Int :=
  dayFromYear year - dayOfWeek (dayFromYear year)

/-- Number of weeks the grid holds for `year`. -/
def calendarWeeks (year : Int) : Nat :=
  ((dayFromYear (year + 1) - 1 - calendarStart year) / 7 + 1).toNat

theorem calendarSpan_bounds (year : Int) :
    364 ≤ dayFromYear (year + 1) - 1 - calendarStart year ∧
    dayFromYear (year + 1) - 1 - calendarStart year ≤ 371 := by
  have h := dayFromYear_succ year
  have hw := dayOfWeek_bounds (dayFromYear year)
  unfold calendarStart
  split_ifs at h <;> omega

theorem endD_eq_dec31 (year : Int) :
    dayFromYear year + 334 + (if isLeapYear year then 1 else 0) + 30 =
      dayFromYear (year + 1) - 1 := by
  have h := dayFromYear_succ year
  split_ifs at h ⊢ <;> omega

theorem calLoop_closed (year : Int) (yd : Int → Nat) (maxD : Nat) :
    ∀ (fuel i : Nat),
      i ≤ ((dayFromYear (year + 1) - 1 - calendarStart year) / 7).toNat →
      ((dayFromYear (year + 1) - 1 - calendarStart year) / 7).toNat - i < fuel →
      calLoop year yd maxD (dayFromYear (year + 1) - 1) fuel
          (calendarStart year + 7 * i) =
        (List.range
            (((dayFromYear (year + 1) - 1 - calendarStart year) / 7).toNat + 1 - i)).map
          (fun j : Nat =>
            calWeek year yd maxD (calendarStart year + 7 * ((i + j : Nat) : Int))) := by
  intro fuel
  induction fuel with
  | zero => intro i hi hlt; omega
  | succ fuel ih =>
    intro i hi hlt
    have hD := calendarSpan_bounds year
    rw [calLoop]
    rw [if_pos (Or.inl (by omega :
      calendarStart year + 7 * (i : Int) ≤ dayFromYear (year + 1) - 1))]
    by_cases hbreak :
        i = ((dayFromYear (year + 1) - 1 - calendarStart year) / 7).toNat
    · rw [if_pos (lt_yearFromDay_iff.mpr (by omega))]
      rw [show ((dayFromYear (year + 1) - 1 - calendarStart year) / 7).toNat + 1 - i
            = 1 by omega]
      rw [show List.range 1 = [0] from rfl]
      simp
    · have hilt : i < ((dayFromYear (year + 1) - 1 - calendarStart year) / 7).toNat := by
        omega
      rw [if_neg (by
        rw [lt_yearFromDay_iff]
        omega)]
      rw [show calendarStart year + 7 * (i : Int) + 7
            = calendarStart year + 7 * ((i + 1 : Nat) : Int) by push_cast; ring]
      rw [ih (i + 1) (by omega) (by omega)]
      rw [show ((dayFromYear (year + 1) - 1 - calendarStart year) / 7).toNat + 1 - i
            = (((dayFromYear (year + 1) - 1 - calendarStart year) / 7).toNat - i) + 1
          by omega]
      rw [List.range_succ_eq_map, List.map_cons, List.map_map]
      refine congrArg₂ _ (by norm_num) ?_
      rw [show ((dayFromYear (year + 1) - 1 - calendarStart year) / 7).toNat + 1 - (i + 1)
            = ((dayFromYear (year + 1) - 1 - calendarStart year) / 7).toNat - i by omega]
      refine List.map_congr_left fun j _ => ?_
      have harg : calendarStart year + 7 * ((i + 1 + j : Nat) : Int)
          = calendarStart year + 7 * ((i + Nat.succ j : Nat) : Int) := by
        push_cast
        ring
      simp only [Function.comp]
      rw [harg]

/-- Closed form of the grid: `calendarWeeks` weeks, week `j` starting
at `calendarStart + 7 j`; in particular the fuel never runs out. -/
theorem generateYearCalendar_eq_weeks (year : Int) (byYear : Int → Int → Nat)
    (maxD : Nat) :
    generateYearCalendar year byYear maxD =
      (List.range (calendarWeeks year)).map
        (fun j : Nat =>
          calWeek year (byYear year) maxD (calendarStart year + 7 * (j : Int))) := by
  have hD := calendarSpan_bounds year
  have h := calLoop_closed year (byYear year) maxD 60 0 (by omega) (by omega)
  simp only [generateYearCalendar]
  rw [endD_eq_dec31 year]
  rw [show dayFromYear year - dayOfWeek (dayFromYear year)
        = calendarStart year + 7 * ((0 : Nat) : Int) by
      unfold calendarStart; push_cast; ring]
  rw [h]
  have hq : ((dayFromYear (year + 1) - 1 - calendarStart year) / 7).toNat + 1 - 0
      = calendarWeeks year := by
    unfold calendarWeeks
    omega
  rw [hq]
  refine List.map_congr_left fun j _ => ?_
  norm_num

/-- C5: the grid starts at the Sunday on or before January 1 of `year`;
it is `calendarWeeks year` weeks, week `i` holding exactly the seven
days `start + 7 i + j` for `j = 0..6` (so weeks are chronological and
run Sunday..Saturday); the last week contains December 31 of `year`;
every cell dated inside `year` has `inYear = true` and that date's
count from `byYear`; every cell dated outside `year` has
`inYear = false`, count 0 and level -1. -/
theorem generateYearCalendar_grid_spec (year : Int) (byYear : Int → Int → Nat)
    (maxD : Nat) :
    ((generateYearCalendar year byYear maxD).map (fun w => w.map DayCell.date) =
      (List.range (calendarWeeks year)).map
        (fun i : Nat => (List.range 7).map
          (fun j : Nat => calendarStart year + 7 * (i : Int) + (j : Int)))) ∧
    1 ≤ calendarWeeks year ∧
    dayOfWeek (calendarStart year) = 0 ∧
    calendarStart year ≤ dayFromYear year ∧
    dayFromYear year - calendarStart year < 7 ∧
    (∀ i j : Nat, j < 7 →
      dayOfWeek (calendarStart year + 7 * (i : Int) + (j : Int)) = j) ∧
    (dayFromYear (year + 1) - 1) ∈
      (((generateYearCalendar year byYear maxD).getLastD []).map DayCell.date) ∧
    (∀ w ∈ generateYearCalendar year byYear maxD, ∀ c ∈ w,
      (yearFromDay c.date = year →
        c.inYear = true ∧ c.count = byYear year c.date ∧
        c.level = (getContributionLevel (byYear year c.date) maxD : Int)) ∧
      (yearFromDay c.date ≠ year →
        c.inYear = false ∧ c.count = 0 ∧ c.level = -1)) := by
  have hD := calendarSpan_bounds year
  have hdow := dayOfWeek_bounds (dayFromYear year)
  have hclosed := generateYearCalendar_eq_weeks year byYear maxD
  refine ⟨?_, ?_, ?_, ?_, ?_, ?_, ?_, ?_⟩
  · rw [hclosed, List.map_map]
    refine List.map_congr_left fun i _ => ?_
    show (calWeek year (byYear year) maxD
        (calendarStart year + 7 * (i : Int))).map DayCell.date = _
    simp only [calWeek, calCell, List.map_map]
    refine List.map_congr_left fun j _ => ?_
    rfl
  · unfold calendarWeeks
    omega
  · unfold calendarStart dayOfWeek
    omega
  · unfold calendarStart dayOfWeek at *
    omega
  · unfold calendarStart dayOfWeek at *
    omega
  · intro i j hj
    have h0 : dayOfWeek (calendarStart year) = 0 := by
      unfold calendarStart dayOfWeek
      omega
    unfold dayOfWeek at *
    omega
  · rw [hclosed]
    have hq : calendarWeeks year
        = ((dayFromYear (year + 1) - 1 - calendarStart year) / 7).toNat + 1 := by
      unfold calendarWeeks
      omega
    rw [hq, List.range_succ, List.map_append, List.map_cons, List.map_nil,
      List.getLastD_concat, calWeek, List.map_map]
    have hlt : (dayFromYear (year + 1) - 1 - calendarStart year
        - 7 * ((dayFromYear (year + 1) - 1 - calendarStart year) / 7)).toNat < 7 := by
      omega
    refine List.mem_map.2
      ⟨(dayFromYear (year + 1) - 1 - calendarStart year
          - 7 * ((dayFromYear (year + 1) - 1 - calendarStart year) / 7)).toNat,
        List.mem_range.2 hlt, ?_⟩
    show calendarStart year
        + 7 * (((dayFromYear (year + 1) - 1 - calendarStart year) / 7).toNat : Int)
        + ((dayFromYear (year + 1) - 1 - calendarStart year
            - 7 * ((dayFromYear (year + 1) - 1 - calendarStart year) / 7)).toNat : Int)
      = dayFromYear (year + 1) - 1
    omega
  · intro w hw c hc
    rw [hclosed] at hw
    obtain ⟨i, _, rfl⟩ := List.mem_map.1 hw
    obtain ⟨j, _, rfl⟩ := List.mem_map.1 hc
    by_cases hy :
        yearFromDay (calendarStart year + 7 * (i : Int) + (j : Int)) = year
    · simp [calCell, hy]
    · simp [calCell, hy]

/-- Closed instance of `generateYearCalendar_grid_spec` at year 2024
with one commit on every day: the unique level-check hypothesis `j < 7`
is discharged at `i = 0`, `j = 0`. -/
theorem generateYearCalendar_grid_spec_witness :
    dayOfWeek (calendarStart 2024 + 7 * ((0 : Nat) : Int) + ((0 : Nat) : Int))
      = (0 : Nat) :=
  ((generateYearCalendar_grid_spec 2024 (fun _ _ => 1) 5).2.2.2.2.2.1) 0 0
    (by decide)

/-! ## Aggregation — src/aggregate.js lines 10-51

`aggregateCommits(commits)`.  A `Commit` is the record the fetcher
stores per SHA; `date` is the parsed author timestamp in ms (JS
`new Date(string)` value).  The date key `"YYYY-MM-DD"` is embedded as
the UTC day number and the year key `"YYYY"` as the integer year
(`substring(0, 4)` of the ISO key; exact for years 1000–9999, and with
the zero-padded forms 0..999 under the `parseInt` the source applies
to it).  JS objects are association lists: updating an existing key
keeps its position, a new key is appended; `Set` is an
insertion-ordered duplicate-free list. -/

structure Commit where
  sha : String
  message : String
  date : Int
  repo : String
  branch : String
  url : String
deriving DecidableEq, Repr

/-- `byDate[k] = (byDate[k] || 0) + 1` on a JS object. -/
def bump : List (Int × Nat) → Int → List (Int × Nat)
  | [], k => [(k, 1)]
  | (a, v) :: t, k => if a = k then (a, v + 1) :: t else (a, v) :: bump t k

/-- `if (!byYear[y]) byYear[y] = {}; byYear[y][k] = (byYear[y][k] || 0) + 1`. -/
def bumpYear : List (Int × List (Int × Nat)) → Int → Int → List (Int × List (Int × Nat))
  | [], y, k => [(y, bump [] k)]
  | (a, m) :: t, y, k =>
    if a = y then (a, bump m k) :: t else (a, m) :: bumpYear t y k

/-- `Set.add`. -/
def insertSetStr (s : List String) (r : String) : List String :=
  if r ∈ s then s else s ++ [r]

structure AggState where
  byDate : List (Int × Nat)
  byYear : List (Int × List (Int × Nat))
  repoSet : List String

/-- UTC date key (day number) of a commit. -/
def dateKeyOf (c : Commit) : Int := dayOfTimestamp c.date

/-- Year key of a commit (first 4 characters of the date key). -/
def yearKeyOf (c : Commit) : Int := yearFromDay (dayOfTimestamp c.date)

/-- Body of the `for (const commit of commits)` loop. -/
def aggStep (s : AggState) (c : Commit) : AggState :=
  { byDate := bump s.byDate (dateKeyOf c)
    byYear := bumpYear s.byYear (yearKeyOf c) (dateKeyOf c)
    repoSet := insertSetStr s.repoSet c.repo }

structure Agg where
  byDate : List (Int × Nat)
  byYear : List (Int × List (Int × Nat))
  yearTotals : List (Int × Nat)
  maxDaily : Nat
  repoCount : Nat
  years : List Int
deriving DecidableEq, Repr

/-- `Object.values(m).reduce((a, b) => a + b, 0)`. -/
def sumVals (m : List (Int × Nat)) : Nat := (m.map Prod.snd).sum

/-- `Math.max(...Object.values(m), 0)`. -/
def maxVals (m : List (Int × Nat)) : Nat := (m.map Prod.snd).foldl Nat.max 0

def aggregateCommits (commits : List Commit) : Agg :=
  let s := commits.foldl aggStep ⟨[], [], []⟩
  { byDate := s.byDate
    byYear := s.byYear
    yearTotals := s.byYear.map (fun p => (p.1, sumVals p.2))
    maxDaily := maxVals s.byDate
    repoCount := s.repoSet.length
    years := (s.byYear.map Prod.fst).mergeSort (fun a b => decide (b ≤ a)) }

/-- Association-list lookup (JS property read). -/
def alookup {β : Type} : List (Int × β) → Int → Option β
  | [], _ => none
  | (a, b) :: t, k => if a = k then some b else alookup t k

/-- `m[k] || 0`. -/
def lookupD (m : List (Int × Nat)) (k : Int) : Nat := (alookup m k).getD 0

/-- `(byYear[y] || {})[k] || 0`. -/
def lookupYearD (m : List (Int × List (Int × Nat))) (y k : Int) : Nat :=
  lookupD ((alookup m y).getD []) k

theorem lookupD_bump (m : List (Int × Nat)) (k x : Int) :
    lookupD (bump m k) x = lookupD m x + if x = k then 1 else 0 := by
  induction m with
  | nil =>
    by_cases h : x = k
    · subst h
      simp [bump, alookup, lookupD]
    · simp [bump, alookup, lookupD, h, Ne.symm h]
  | cons p t ih =>
    obtain ⟨a, v⟩ := p
    by_cases hak : a = k
    · subst hak
      by_cases hx : a = x
      · subst hx
        simp [bump, alookup, lookupD]
      · have hxa : ¬x = a := fun h => hx h.symm
        simp [bump, alookup, lookupD, hx, hxa]
    · by_cases hx : a = x
      · subst hx
        have hxk : ¬a = k := hak
        simp [bump, alookup, lookupD, hak]
      · simp [bump, alookup, lookupD, hak, hx]
        exact ih

theorem bump_keys (m : List (Int × Nat)) (k : Int) :
    (bump m k).map Prod.fst =
      if k ∈ m.map Prod.fst then m.map Prod.fst else m.map Prod.fst ++ [k] := by
  induction m with
  | nil => simp [bump]
  | cons p t ih =>
    obtain ⟨a, v⟩ := p
    by_cases hak : a = k
    · simp [bump, hak]
    · simp only [bump, if_neg hak, List.map_cons, ih]
      by_cases hk : k ∈ t.map Prod.fst <;>
        simp [hk, Ne.symm hak]

theorem bump_keys_nodup {m : List (Int × Nat)} (k : Int)
    (h : (m.map Prod.fst).Nodup) : ((bump m k).map Prod.fst).Nodup := by
  rw [bump_keys]
  split_ifs with hk
  · exact h
  · simp [List.nodup_append, h, hk]

theorem alookup_none_iff {β : Type} (m : List (Int × β)) (x : Int) :
    alookup m x = none ↔ x ∉ m.map Prod.fst := by
  induction m with
  | nil => simp [alookup]
  | cons p t ih =>
    obtain ⟨a, b⟩ := p
    by_cases h : a = x
    · subst h
      simp [alookup]
    · simp [alookup, h, ih, Ne.symm h]

theorem mem_of_alookup {β : Type} {m : List (Int × β)} {x : Int} {v : β}
    (h : alookup m x = some v) : (x, v) ∈ m := by
  induction m with
  | nil => simp [alookup] at h
  | cons p t ih =>
    obtain ⟨a, b⟩ := p
    by_cases hax : a = x
    · subst hax
      simp [alookup] at h
      simp [h]
    · simp [alookup, hax] at h
      exact List.mem_cons_of_mem _ (ih h)

theorem alookup_of_mem {β : Type} {m : List (Int × β)} {x : Int} {v : β}
    (hm : (x, v) ∈ m) (hn : (m.map Prod.fst).Nodup) : alookup m x = some v := by
  induction m with
  | nil => simp at hm
  | cons p t ih =>
    obtain ⟨a, b⟩ := p
    simp only [List.map_cons, List.nodup_cons] at hn
    rcases List.mem_cons.1 hm with h | h
    · rw [← h]
      simp [alookup]
    · have hax : a ≠ x := by
        rintro rfl
        exact hn.1 (List.mem_map.2 ⟨(a, v), h, rfl⟩)
      simp [alookup, hax]
      exact ih h hn.2

theorem foldl_max_init_le (l : List Nat) (a : Nat) : a ≤ l.foldl Nat.max a := by
  induction l generalizing a with
  | nil => simp
  | cons x t ih =>
    calc a ≤ Nat.max a x := Nat.le_max_left a x
    _ ≤ t.foldl Nat.max (Nat.max a x) := ih _
    _ = (x :: t).foldl Nat.max a := rfl

theorem le_foldl_max_of_mem {l : List Nat} {x : Nat} (h : x ∈ l) (a : Nat) :
    x ≤ l.foldl Nat.max a := by
  induction l generalizing a with
  | nil => simp at h
  | cons y t ih =>
    rcases List.mem_cons.1 h with rfl | h
    · calc x ≤ Nat.max a x := Nat.le_max_right a x
      _ ≤ t.foldl Nat.max (Nat.max a x) := foldl_max_init_le t _
    · exact ih h _

theorem foldl_max_eq_or_mem (l : List Nat) (a : Nat) :
    l.foldl Nat.max a = a ∨ l.foldl Nat.max a ∈ l := by
  induction l generalizing a with
  | nil => simp
  | cons x t ih =>
    rcases ih (Nat.max a x) with h | h
    · by_cases hax : a ≤ x
      · right
        have hx : Nat.max a x = x := Nat.max_eq_right hax
        show t.foldl Nat.max (Nat.max a x) ∈ x :: t
        rw [h, hx]
        exact List.mem_cons_self x t
      · left
        have ha : Nat.max a x = a := Nat.max_eq_left (by omega)
        show t.foldl Nat.max (Nat.max a x) = a
        rw [h, ha]
    · right
      exact List.mem_cons_of_mem _ h

theorem lookupD_le_maxVals (m : List (Int × Nat)) (x : Int) :
    lookupD m x ≤ maxVals m := by
  unfold lookupD maxVals
  cases h : alookup m x with
  | none => simp
  | some v =>
    simp only [Option.getD_some]
    have hv : v ∈ m.map Prod.snd :=
      List.mem_map.2 ⟨(x, v), mem_of_alookup h, rfl⟩
    exact le_foldl_max_of_mem hv 0

theorem maxVals_attained {m : List (Int × Nat)} (hn : (m.map Prod.fst).Nodup) :
    maxVals m = 0 ∨ ∃ x, lookupD m x = maxVals m := by
  rcases foldl_max_eq_or_mem (m.map Prod.snd) 0 with h | h
  · exact Or.inl h
  · obtain ⟨⟨x, v⟩, hmem, hv⟩ := List.mem_map.1 h
    refine Or.inr ⟨x, ?_⟩
    rw [lookupD, alookup_of_mem hmem hn]
    exact hv

theorem lookupYearD_bumpYear (m : List (Int × List (Int × Nat))) (y k y' x : Int) :
    lookupYearD (bumpYear m y k) y' x =
      lookupYearD m y' x + if y' = y ∧ x = k then 1 else 0 := by
  induction m with
  | nil =>
    by_cases hy : y' = y
    · subst hy
      by_cases hx : x = k
      · subst hx
        simp [bumpYear, lookupYearD, alookup, lookupD, bump]
      · simp [bumpYear, lookupYearD, alookup, lookupD, bump, hx, Ne.symm hx]
    · simp [bumpYear, lookupYearD, alookup, lookupD, hy, Ne.symm hy]
  | cons p t ih =>
    obtain ⟨a, mm⟩ := p
    by_cases hay : a = y
    · subst hay
      by_cases hy : y' = a
      · subst hy
        simp [bumpYear, lookupYearD, alookup, lookupD_bump]
      · simp [bumpYear, lookupYearD, alookup, Ne.symm hy, hy]
    · by_cases hy : y' = a
      · have hne : ¬(y' = y ∧ x = k) := by
          rintro ⟨h1, _⟩
          apply hay
          omega
        have h1 : lookupYearD ((a, mm) :: bumpYear t y k) y' x = lookupD mm x := by
          simp [lookupYearD, alookup, hy.symm]
        have h2 : lookupYearD ((a, mm) :: t) y' x = lookupD mm x := by
          simp [lookupYearD, alookup, hy.symm]
        rw [bumpYear, if_neg hay, h1, h2, if_neg hne]
        omega
      · simp only [bumpYear, if_neg hay]
        have h1 : lookupYearD ((a, mm) :: bumpYear t y k) y' x
            = lookupYearD (bumpYear t y k) y' x := by
          simp [lookupYearD, alookup, Ne.symm hy]
        have h2 : lookupYearD ((a, mm) :: t) y' x = lookupYearD t y' x := by
          simp [lookupYearD, alookup, Ne.symm hy]
        rw [h1, h2, ih]

theorem sumVals_bump (m : List (Int × Nat)) (k : Int) :
    sumVals (bump m k) = sumVals m + 1 := by
  induction m with
  | nil => simp [bump, sumVals]
  | cons p t ih =>
    obtain ⟨a, v⟩ := p
    by_cases hak : a = k
    · simp [bump, hak, sumVals]
      omega
    · simp [bump, hak, sumVals] at *
      omega

/-- Total of one year's daily counts, read off the `byYear` map. -/
def yearSumD (m : List (Int × List (Int × Nat))) (y : Int) : Nat :=
  sumVals ((alookup m y).getD [])

theorem yearSumD_bumpYear (m : List (Int × List (Int × Nat))) (y k y' : Int) :
    yearSumD (bumpYear m y k) y' = yearSumD m y' + if y' = y then 1 else 0 := by
  induction m with
  | nil =>
    by_cases hy : y' = y
    · subst hy
      simp [bumpYear, yearSumD, alookup, sumVals, bump]
    · simp [bumpYear, yearSumD, alookup, sumVals, hy, Ne.symm hy]
  | cons p t ih =>
    obtain ⟨a, mm⟩ := p
    by_cases hay : a = y
    · subst hay
      by_cases hy : y' = a
      · subst hy
        simp [bumpYear, yearSumD, alookup, sumVals_bump]
      · simp [bumpYear, yearSumD, alookup, Ne.symm hy, hy]
    · by_cases hy : y' = a
      · have hne : ¬(y' = y) := by
          intro h1
          apply hay
          omega
        have h1 : yearSumD ((a, mm) :: bumpYear t y k) y' = sumVals mm := by
          simp [yearSumD, alookup, hy.symm]
        have h2 : yearSumD ((a, mm) :: t) y' = sumVals mm := by
          simp [yearSumD, alookup, hy.symm]
        rw [bumpYear, if_neg hay, h1, h2, if_neg hne]
        omega
      · simp only [bumpYear, if_neg hay]
        have h1 : yearSumD ((a, mm) :: bumpYear t y k) y'
            = yearSumD (bumpYear t y k) y' := by
          simp [yearSumD, alookup, Ne.symm hy]
        have h2 : yearSumD ((a, mm) :: t) y' = yearSumD t y' := by
          simp [yearSumD, alookup, Ne.symm hy]
        rw [h1, h2, ih]

theorem bumpYear_keys (m : List (Int × List (Int × Nat))) (y k : Int) :
    (bumpYear m y k).map Prod.fst =
      if y ∈ m.map Prod.fst then m.map Prod.fst else m.map Prod.fst ++ [y] := by
  induction m with
  | nil => simp [bumpYear]
  | cons p t ih =>
    obtain ⟨a, mm⟩ := p
    by_cases hay : a = y
    · simp [bumpYear, hay]
    · simp only [bumpYear, if_neg hay, List.map_cons, ih]
      by_cases hy : y ∈ t.map Prod.fst <;>
        simp [hy, Ne.symm hay]

/-- `Set.add` membership. -/
theorem mem_insertSetStr (s : List String) (r x : String) :
    x ∈ insertSetStr s r ↔ x ∈ s ∨ x = r := by
  unfold insertSetStr
  split_ifs with h
  · constructor
    · exact Or.inl
    · rintro (hx | rfl)
      · exact hx
      · exact h
  · simp

theorem insertSetStr_nodup {s : List String} (r : String) (h : s.Nodup) :
    (insertSetStr s r).Nodup := by
  unfold insertSetStr
  split_ifs with hr
  · exact h
  · simp [List.nodup_append, h, hr]

theorem byDate_foldl (cs : List Commit) (s : AggState) (x : Int) :
    lookupD ((cs.foldl aggStep s).byDate) x =
      lookupD s.byDate x + cs.countP (fun c => decide (dateKeyOf c = x)) := by
  induction cs generalizing s with
  | nil => simp
  | cons c t ih =>
    rw [List.foldl_cons, ih, List.countP_cons]
    have hstep : lookupD ((aggStep s c).byDate) x
        = lookupD s.byDate x + if x = dateKeyOf c then 1 else 0 := by
      simp [aggStep, lookupD_bump]
    rw [hstep]
    by_cases h : dateKeyOf c = x
    · simp [h]
      omega
    · rw [if_neg (fun hh => h hh.symm)]
      simp [h]

theorem byYear_foldl (cs : List Commit) (s : AggState) (y x : Int) :
    lookupYearD ((cs.foldl aggStep s).byYear) y x =
      lookupYearD s.byYear y x +
        cs.countP (fun c => decide (yearKeyOf c = y ∧ dateKeyOf c = x)) := by
  induction cs generalizing s with
  | nil => simp
  | cons c t ih =>
    rw [List.foldl_cons, ih, List.countP_cons]
    have hstep : lookupYearD ((aggStep s c).byYear) y x
        = lookupYearD s.byYear y x +
            if y = yearKeyOf c ∧ x = dateKeyOf c then 1 else 0 := by
      simp [aggStep, lookupYearD_bumpYear]
    rw [hstep]
    by_cases h : yearKeyOf c = y ∧ dateKeyOf c = x
    · rw [if_pos ⟨h.1.symm, h.2.symm⟩]
      simp [h]
      omega
    · rw [if_neg (fun hh => h ⟨hh.1.symm, hh.2.symm⟩)]
      simp [h]

theorem yearSumD_foldl (cs : List Commit) (s : AggState) (y : Int) :
    yearSumD ((cs.foldl aggStep s).byYear) y =
      yearSumD s.byYear y + cs.countP (fun c => decide (yearKeyOf c = y)) := by
  induction cs generalizing s with
  | nil => simp
  | cons c t ih =>
    rw [List.foldl_cons, ih, List.countP_cons]
    have hstep : yearSumD ((aggStep s c).byYear) y
        = yearSumD s.byYear y + if y = yearKeyOf c then 1 else 0 := by
      simp [aggStep, yearSumD_bumpYear]
    rw [hstep]
    by_cases h : yearKeyOf c = y
    · simp [h]
      omega
    · rw [if_neg (fun hh => h hh.symm)]
      simp [h]

theorem byYear_keys_foldl (cs : List Commit) (s : AggState) (y : Int) :
    y ∈ ((cs.foldl aggStep s).byYear.map Prod.fst) ↔
      y ∈ s.byYear.map Prod.fst ∨ ∃ c ∈ cs, yearKeyOf c = y := by
  induction cs generalizing s with
  | nil => simp
  | cons c t ih =>
    rw [List.foldl_cons, ih]
    have hstep : y ∈ ((aggStep s c).byYear.map Prod.fst) ↔
        y ∈ s.byYear.map Prod.fst ∨ yearKeyOf c = y := by
      show y ∈ ((bumpYear s.byYear (yearKeyOf c) (dateKeyOf c)).map Prod.fst) ↔ _
      rw [bumpYear_keys]
      split_ifs with hmem
      · constructor
        · exact Or.inl
        · rintro (h | rfl)
          · exact h
          · exact hmem
      · simp [or_comm, eq_comm]
    rw [hstep, List.exists_mem_cons_iff]
    tauto

theorem byDate_nodup_foldl (cs : List Commit) (s : AggState)
    (h : (s.byDate.map Prod.fst).Nodup) :
    (((cs.foldl aggStep s).byDate).map Prod.fst).Nodup := by
  induction cs generalizing s with
  | nil => exact h
  | cons c t ih =>
    rw [List.foldl_cons]
    exact ih _ (bump_keys_nodup _ h)

theorem repoSet_foldl_mem (cs : List Commit) (s : AggState) (x : String) :
    x ∈ (cs.foldl aggStep s).repoSet ↔ x ∈ s.repoSet ∨ ∃ c ∈ cs, c.repo = x := by
  induction cs generalizing s with
  | nil => simp
  | cons c t ih =>
    rw [List.foldl_cons, ih, List.exists_mem_cons_iff]
    have hstep : x ∈ (aggStep s c).repoSet ↔ x ∈ s.repoSet ∨ x = c.repo :=
      mem_insertSetStr s.repoSet c.repo x
    have hcomm : (x = c.repo) ↔ (c.repo = x) := ⟨Eq.symm, Eq.symm⟩
    rw [hstep, hcomm]
    tauto

theorem repoSet_foldl_nodup (cs : List Commit) (s : AggState)
    (h : s.repoSet.Nodup) : (cs.foldl aggStep s).repoSet.Nodup := by
  induction cs generalizing s with
  | nil => exact h
  | cons c t ih =>
    rw [List.foldl_cons]
    exact ih _ (insertSetStr_nodup _ h)

theorem alookup_map_val {β γ : Type} (f : β → γ) (m : List (Int × β)) (y : Int) :
    alookup (m.map (fun p => (p.1, f p.2))) y = (alookup m y).map f := by
  induction m with
  | nil => simp [alookup]
  | cons p t ih =>
    obtain ⟨a, b⟩ := p
    by_cases h : a = y <;> simp [alookup, h, ih]

theorem alookup_yearTotals (m : List (Int × List (Int × Nat))) (y : Int) :
    alookup (m.map (fun p => (p.1, sumVals p.2))) y =
      if y ∈ m.map Prod.fst then some (yearSumD m y) else none := by
  rw [alookup_map_val]
  cases hal : alookup m y with
  | none =>
    rw [if_neg ((alookup_none_iff m y).1 hal)]
    rfl
  | some mm =>
    have hy : y ∈ m.map Prod.fst := by
      by_contra hc
      rw [(alookup_none_iff m y).2 hc] at hal
      exact Option.noConfusion hal
    rw [if_pos hy]
    simp [yearSumD, hal]

theorem maxVals_le_of_lookupD_le {m₁ m₂ : List (Int × Nat)}
    (hn : (m₁.map Prod.fst).Nodup)
    (hl : ∀ x, lookupD m₁ x = lookupD m₂ x) : maxVals m₁ ≤ maxVals m₂ := by
  rcases maxVals_attained hn with h0 | ⟨x, hx⟩
  · rw [h0]
    exact Nat.zero_le _
  · rw [← hx, hl x]
    exact lookupD_le_maxVals m₂ x

/-- C9: aggregation is a pure function of the commit multiset: for any
reordering of the input list the `byDate` map, the `byYear` map, the
`yearTotals` map, the maximum single-day count and the repository
count are all identical. -/
theorem aggregateCommits_perm_invariant (cs cs' : List Commit)
    (h : cs.Perm cs') :
    (∀ x, lookupD (aggregateCommits cs).byDate x
        = lookupD (aggregateCommits cs').byDate x) ∧
    (∀ y x, lookupYearD (aggregateCommits cs).byYear y x
        = lookupYearD (aggregateCommits cs').byYear y x) ∧
    (∀ y, alookup (aggregateCommits cs).yearTotals y
        = alookup (aggregateCommits cs').yearTotals y) ∧
    (aggregateCommits cs).maxDaily = (aggregateCommits cs').maxDaily ∧
    (aggregateCommits cs).repoCount = (aggregateCommits cs').repoCount := by
  have hbd : ∀ x, lookupD (aggregateCommits cs).byDate x
      = lookupD (aggregateCommits cs').byDate x := by
    intro x
    show lookupD ((cs.foldl aggStep ⟨[], [], []⟩).byDate) x
        = lookupD ((cs'.foldl aggStep ⟨[], [], []⟩).byDate) x
    rw [byDate_foldl, byDate_foldl, h.countP_eq]
  refine ⟨hbd, ?_, ?_, ?_, ?_⟩
  · intro y x
    show lookupYearD ((cs.foldl aggStep ⟨[], [], []⟩).byYear) y x
        = lookupYearD ((cs'.foldl aggStep ⟨[], [], []⟩).byYear) y x
    rw [byYear_foldl, byYear_foldl, h.countP_eq]
  · intro y
    show alookup ((cs.foldl aggStep ⟨[], [], []⟩).byYear.map
          (fun p => (p.1, sumVals p.2))) y
        = alookup ((cs'.foldl aggStep ⟨[], [], []⟩).byYear.map
          (fun p => (p.1, sumVals p.2))) y
    rw [alookup_yearTotals, alookup_yearTotals]
    have hkeys : (y ∈ (cs.foldl aggStep ⟨[], [], []⟩).byYear.map Prod.fst) ↔
        (y ∈ (cs'.foldl aggStep ⟨[], [], []⟩).byYear.map Prod.fst) := by
      rw [byYear_keys_foldl, byYear_keys_foldl]
      constructor
      · rintro (hc | ⟨c, hc, hy⟩)
        · simp at hc
        · exact Or.inr ⟨c, h.subset hc, hy⟩
      · rintro (hc | ⟨c, hc, hy⟩)
        · simp at hc
        · exact Or.inr ⟨c, h.symm.subset hc, hy⟩
    have hsum : yearSumD ((cs.foldl aggStep ⟨[], [], []⟩).byYear) y
        = yearSumD ((cs'.foldl aggStep ⟨[], [], []⟩).byYear) y := by
      rw [yearSumD_foldl, yearSumD_foldl, h.countP_eq]
    rw [hsum]
    exact if_congr hkeys rfl rfl
  · show maxVals ((cs.foldl aggStep ⟨[], [], []⟩).byDate)
        = maxVals ((cs'.foldl aggStep ⟨[], [], []⟩).byDate)
    have hn1 := byDate_nodup_foldl cs ⟨[], [], []⟩ (by simp)
    have hn2 := byDate_nodup_foldl cs' ⟨[], [], []⟩ (by simp)
    refine Nat.le_antisymm (maxVals_le_of_lookupD_le hn1 hbd)
      (maxVals_le_of_lookupD_le hn2 (fun x => (hbd x).symm))
  · show (cs.foldl aggStep ⟨[], [], []⟩).repoSet.length
        = (cs'.foldl aggStep ⟨[], [], []⟩).repoSet.length
    have hn1 := repoSet_foldl_nodup cs ⟨[], [], []⟩ (by simp)
    have hn2 := repoSet_foldl_nodup cs' ⟨[], [], []⟩ (by simp)
    have hext : ∀ a, a ∈ (cs.foldl aggStep ⟨[], [], []⟩).repoSet ↔
        a ∈ (cs'.foldl aggStep ⟨[], [], []⟩).repoSet := by
      intro a
      rw [repoSet_foldl_mem, repoSet_foldl_mem]
      constructor
      · rintro (hc | ⟨c, hc, hy⟩)
        · simp at hc
        · exact Or.inr ⟨c, h.subset hc, hy⟩
      · rintro (hc | ⟨c, hc, hy⟩)
        · simp at hc
        · exact Or.inr ⟨c, h.symm.subset hc, hy⟩
    exact ((List.perm_ext_iff_of_nodup hn1 hn2).2 hext).length_eq

/-- Helper to build concrete commits for closed instances. -/
def mkCommit (sha repo : String) (day : Int) : Commit :=
  { sha := sha, message := "m", date := day * 86400000,
    repo := repo, branch := "main", url := "u" }

/-- Closed instance of `aggregateCommits_perm_invariant`: swapping a
two-element commit list preserves `maxDaily`. -/
theorem aggregateCommits_perm_invariant_witness :
    (aggregateCommits [mkCommit "a" "r" 19523, mkCommit "b" "r2" 19789]).maxDaily
      = (aggregateCommits
          [mkCommit "b" "r2" 19789, mkCommit "a" "r" 19523]).maxDaily :=
  (aggregateCommits_perm_invariant _ _ (by decide)).2.2.2.1

/-! ## Year rendering — src/render.js lines 626-628

`renderYear(year, commits)` calls
`generateYearCalendar(year, commits.byYear, commits.maxDaily)`: the
one `maxDaily` the aggregator returned — the maximum over
`Object.values(byDate)`, i.e. over all years together — is handed to
every year's calendar. -/

def renderYearCalendar (agg : Agg) (year : Int) : List (List DayCell) :=
  generateYearCalendar year (fun y k => lookupYearD agg.byYear y k) agg.maxDaily

/-- Level of the grid cell holding date `d` (statement helper). -/
def levelOfDate (weeks : List (List DayCell)) (d : Int) : Option Int :=
  ((weeks.flatten).find? (fun c => decide (c.date = d))).map DayCell.level

/-- C1 (amended): the aggregator returns a single global
`maxDaily` — the maximum over the daily counts of ALL years together
(0 if there are no commits) — and the rendering pipeline scales every
year's calendar with that global maximum: each in-year cell's level is
`getContributionLevel count maxDaily` for the global `maxDaily`, not
the year's own maximum. -/
theorem aggregate_scaling_is_global (cs : List Commit) (year : Int) :
    (∀ x, lookupD (aggregateCommits cs).byDate x
        ≤ (aggregateCommits cs).maxDaily) ∧
    ((aggregateCommits cs).maxDaily = 0 ∨
      ∃ x, lookupD (aggregateCommits cs).byDate x
        = (aggregateCommits cs).maxDaily) ∧
    (∀ w ∈ renderYearCalendar (aggregateCommits cs) year, ∀ c ∈ w,
      c.inYear = true →
      c.level = (getContributionLevel c.count (aggregateCommits cs).maxDaily
        : Int)) := by
  refine ⟨?_, ?_, ?_⟩
  · intro x
    exact lookupD_le_maxVals _ x
  · exact maxVals_attained (byDate_nodup_foldl cs ⟨[], [], []⟩ (by simp))
  · intro w hw c hc hin
    rw [renderYearCalendar, generateYearCalendar_eq_weeks] at hw
    obtain ⟨i, _, rfl⟩ := List.mem_map.1 hw
    obtain ⟨j, _, rfl⟩ := List.mem_map.1 hc
    by_cases hy : yearFromDay (calendarStart year + 7 * (i : Int) + (j : Int))
        = year
    · simp [calCell, hy]
    · simp [calCell, hy] at hin

/-- Closed instance of `aggregate_scaling_is_global` at a one-commit
list: every daily count is bounded by the returned `maxDaily`. -/
theorem aggregate_scaling_is_global_witness :
    lookupD (aggregateCommits [mkCommit "a" "r" 19523]).byDate 19523
      ≤ (aggregateCommits [mkCommit "a" "r" 19523]).maxDaily :=
  (aggregate_scaling_is_global [mkCommit "a" "r" 19523] 2023).1 19523

/-- Input refuting per-year scaling: ten commits on 2023-06-15
(day 19523) and three on 2024-03-07 (day 19789). -/
def csC1 : List Commit :=
  [mkCommit "s1" "r" 19523, mkCommit "s2" "r" 19523, mkCommit "s3" "r" 19523,
   mkCommit "s4" "r" 19523, mkCommit "s5" "r" 19523, mkCommit "s6" "r" 19523,
   mkCommit "s7" "r" 19523, mkCommit "s8" "r" 19523, mkCommit "s9" "r" 19523,
   mkCommit "s10" "r" 19523,
   mkCommit "t1" "r" 19789, mkCommit "t2" "r" 19789, mkCommit "t3" "r" 19789]

/-- C1 counterexample: on `csC1` the aggregator's only returned
maximum is the global 10 (not year 2024's own maximum 3), and the
pipeline renders 2024-03-07 at level 2 (= level of count 3 against the
global maximum 10), while scaling by 2024's own maximum 3 would give
level 3 — so a year IS scaled by a maximum taken across other years. -/
theorem perYear_scaling_counterexample :
    (aggregateCommits csC1).maxDaily = 10 ∧
    (alookup (aggregateCommits csC1).byYear 2024).map maxVals = some 3 ∧
    levelOfDate (renderYearCalendar (aggregateCommits csC1) 2024) 19789
      = some 2 ∧
    getContributionLevel 3 3 = 3 := by
  refine ⟨by decide, by decide, ?_, by decide⟩
  decide

/-! ## GitHub API client — src/fetch.js lines 54-95

`githubFetch(endpoint, token, retries = 3)`.  The network is scripted
by `script : Nat → Resp`, giving the response to the attempt-numbered
request; `now` is the clock (`Date.now()`), advanced by exactly the
slept duration at each `sleep` (idealized timer).  The traced list
records every slept duration in order.  The `for` loop's `continue`
advances `attempt`, so fuel counts the remaining loop iterations
(`retries - attempt + 1`); exhausting it is the `Max retries exceeded`
throw after the loop. -/

structure Resp where
  status : Nat
  remaining : Option String
  reset : Option Int
  body : String
deriving DecidableEq, Repr

inductive FetchOutcome where
  | success (r : Resp)
  | apiError (status : Nat) (body : String)
  | maxRetriesExceeded
deriving DecidableEq, Repr

def githubFetchGo (script : Nat → Resp) : Nat → Nat → Int → FetchOutcome × List Int
  | 0, _, _ => (FetchOutcome.maxRetriesExceeded, [])
  | fuel + 1, attempt, now =>
    let r := script attempt
    if r.status = 403 ∨ r.status = 429 then
      if r.remaining = some "0" ∧ r.reset ≠ none then
        -- primary rate limit: wait until reset + 1s, retry
        let waitMs := (r.reset.getD 0) * 1000 - now + 1000
        let next := githubFetchGo script fuel (attempt + 1) (now + max waitMs 0)
        (next.1, waitMs :: next.2)
      else
        -- secondary rate limit: exponential backoff 2^attempt seconds
        let backoff := 2 ^ attempt * 1000
        let next := githubFetchGo script fuel (attempt + 1) (now + backoff)
        (next.1, (backoff : Int) :: next.2)
    else if 200 ≤ r.status ∧ r.status < 300 then
      (FetchOutcome.success r, [])
    else
      (FetchOutcome.apiError r.status r.body, [])

def githubFetchModel (script : Nat → Resp) (now : Int) : FetchOutcome × List Int :=
  githubFetchGo script 3 1 now

/-- A 403/429 response with `x-ratelimit-remaining: 0` and a reset
timestamp present. -/
def quotaExhausted (r : Resp) : Prop :=
  (r.status = 403 ∨ r.status = 429) ∧ r.remaining = some "0" ∧ r.reset ≠ none

instance (r : Resp) : Decidable (quotaExhausted r) := by
  unfold quotaExhausted
  infer_instance

/-- C3 counterexample: three consecutive quota-exhausted responses
(403, remaining "0", reset present) exhaust the three-attempt budget
and the call fails with `Max retries exceeded` — so the wait-and-retry
path DOES consume the bounded retry budget. -/
theorem quotaWait_consumes_budget_counterexample :
    quotaExhausted ⟨403, some "0", some 100, ""⟩ ∧
    (githubFetchModel (fun _ => ⟨403, some "0", some 100, ""⟩) 0).1
      = FetchOutcome.maxRetriesExceeded ∧
    (githubFetchModel (fun _ => ⟨403, some "0", some 100, ""⟩) 0).2
      = [101000, 0, 0] := by
  refine ⟨by decide, by decide, by decide⟩

/-- C3 (amended): on a quota-exhausted 403/429 the client sleeps
`reset·1000 − now + 1000` ms and retries the same request, but the
retry consumes one attempt of the shared 3-attempt budget; three
consecutive quota-exhausted responses therefore end in a
`Max retries exceeded` failure after three waits. -/
theorem quotaWait_retries_amended (script : Nat → Resp) (now : Int)
    (h : ∀ a, 1 ≤ a → a ≤ 3 → quotaExhausted (script a)) :
    (githubFetchModel script now).2.head?
      = some (((script 1).reset.getD 0) * 1000 - now + 1000) ∧
    (githubFetchModel script now).1 = FetchOutcome.maxRetriesExceeded ∧
    (githubFetchModel script now).2.length = 3 := by
  obtain ⟨h1s, h1r, h1t⟩ := h 1 (by omega) (by omega)
  obtain ⟨h2s, h2r, h2t⟩ := h 2 (by omega) (by omega)
  obtain ⟨h3s, h3r, h3t⟩ := h 3 (by omega) (by omega)
  simp only [githubFetchModel, githubFetchGo]
  rw [if_pos h1s, if_pos ⟨h1r, h1t⟩, if_pos h2s, if_pos ⟨h2r, h2t⟩,
    if_pos h3s, if_pos ⟨h3r, h3t⟩]
  exact ⟨rfl, rfl, rfl⟩

/-- Closed instance of `quotaWait_retries_amended` at the constant
quota-exhausted script and clock 0. -/
theorem quotaWait_retries_amended_witness :
    (githubFetchModel (fun _ => ⟨403, some "0", some 100, ""⟩) 0).2.head?
      = some ((((fun _ : Nat => Resp.mk 403 (some "0") (some 100) "") 1
          ).reset.getD 0) * 1000 - 0 + 1000) :=
  (quotaWait_retries_amended (fun _ => ⟨403, some "0", some 100, ""⟩) 0
    (fun _ _ _ => show quotaExhausted ⟨403, some "0", some 100, ""⟩ by decide)).1

/-! ## Commit acquisition — src/fetch.js lines 150-386

`fetchAllCommits(token, targetUser, repoFilter, forceRefresh)`.  The
network is an `Oracle` scripting each endpoint's parsed result: an
`Except.error` is a `githubFetch`/JSON failure thrown at that call
site (`ApiErr.httpError` carries the status and body text the thrown
`Error` message holds).  Concurrency (`processInParallel`) is
cooperative single-threaded interleaving of whole-map mutations, and
the result is completion-order independent, so the per-repo work is
modelled as a sequential fold in list order.  Logging and the
`updated_at` debug field of a snapshot (written, never read) are not
modelled; `lastSearchDate` of the cache (never read) likewise. -/

inductive ApiErr where
  | httpError (status : Nat) (body : String)
  | maxRetries
deriving DecidableEq, Repr

structure Repo where
  fullName : String
  pushedAt : String
  fork : Bool
  owner : String
deriving DecidableEq, Repr

/-- An item of `/repos/:repo/commits` (fields the source reads). -/
structure RawCommit where
  sha : String
  message : String
  date : Int
  url : String
deriving DecidableEq, Repr

/-- An item of `/search/commits` (fields the source reads). -/
structure SearchItem where
  sha : String
  message : String
  date : Int
  repoFullName : String
  url : String
deriving DecidableEq, Repr

structure SearchPage where
  items : List SearchItem
  totalCount : Nat
deriving DecidableEq, Repr

structure Oracle where
  user : Except ApiErr String
  repos : Except ApiErr (List Repo)
  branches : String → Except ApiErr (List String)
  commits : String → String → Except ApiErr (List RawCommit)
  search : Nat → Except ApiErr SearchPage

structure CacheData where
  repos : List (String × String)
  commits : List Commit
deriving DecidableEq, Repr

structure RunState where
  commitMap : List (String × Commit)
  repoSet : List String
  snaps : List (String × String)
deriving DecidableEq, Repr

/-- `message.split('\n')[0]`. -/
def firstLine (s : String) : String := (s.splitOn "\n").headD ""

/-- `if (!commitMap.has(c.sha)) commitMap.set(c.sha, c)` — JS `Map.set`
appends a new key at the end. -/
def dedupInsert (m : List (String × Commit)) (c : Commit) :
    List (String × Commit) :=
  if c.sha ∈ m.map Prod.fst then m else m ++ [(c.sha, c)]

/-- Unconditional `Map.set` (cache pre-population). -/
def setAssoc (m : List (String × Commit)) (c : Commit) :
    List (String × Commit) :=
  match m with
  | [] => [(c.sha, c)]
  | (k, v) :: t => if k = c.sha then (k, c) :: t else (k, v) :: setAssoc t c

/-- JS object property write (`cache.repos[name] = {...}`). -/
def setSnap : List (String × String) → String → String → List (String × String)
  | [], k, v => [(k, v)]
  | (a, b) :: t, k, v => if a = k then (a, v) :: t else (a, b) :: setSnap t k v

/-- String-keyed association lookup. -/
def sAlookup {β : Type} : List (String × β) → String → Option β
  | [], _ => none
  | (a, b) :: t, k => if a = k then some b else sAlookup t k

/-- Store a phase-1 commit tagged with its repo and branch. -/
def storedOf (repoName branch : String) (rc : RawCommit) : Commit :=
  { sha := rc.sha, message := firstLine rc.message, date := rc.date,
    repo := repoName, branch := branch, url := rc.url }

/-- Store a search item tagged with its repo and the `unknown` branch
sentinel. -/
def storedOfSearch (it : SearchItem) : Commit :=
  { sha := it.sha, message := firstLine it.message, date := it.date,
    repo := it.repoFullName, branch := "unknown", url := it.url }

/-- Phase-1 insertion (src/fetch.js lines 321-334): dedup by SHA, and
record the repo in `repoSet` only when the commit is new. -/
def phase1Insert (repoName branch : String) (st : RunState) (rc : RawCommit) :
    RunState :=
  if rc.sha ∈ st.commitMap.map Prod.fst then st
  else
    { st with
      commitMap := st.commitMap ++ [(rc.sha, storedOf repoName branch rc)]
      repoSet := insertSetStr st.repoSet repoName }

/-- Search insertion (src/fetch.js lines 183-196). -/
def searchInsert (st : RunState) (it : SearchItem) : RunState :=
  if it.sha ∈ st.commitMap.map Prod.fst then st
  else
    { st with
      commitMap := st.commitMap ++ [(it.sha, storedOfSearch it)]
      repoSet := insertSetStr st.repoSet it.repoFullName }

/-- One repository of Phase 1 (src/fetch.js lines 305-356): enumerate
branches (failure caught at repo level: unit skipped, no snapshot
update), fetch each branch's commits (failure caught at branch level:
branch skipped), then record the snapshot with the current
`pushed_at`. -/
def processRepoModel (O : Oracle) (st : RunState) (repo : Repo) : RunState :=
  match O.branches repo.fullName with
  | .error _ => st
  | .ok branches =>
    let st1 := branches.foldl
      (fun st b =>
        match O.commits repo.fullName b with
        | .error _ => st
        | .ok rcs => rcs.foldl (phase1Insert repo.fullName b) st)
      st
    { st1 with snaps := setSnap st1.snaps repo.fullName repo.pushedAt }

/-- The search loop (src/fetch.js lines 155-220): pages 1..10, scripted
results; any error breaks the loop (422 silently, others after a log);
an empty page, a short page, or reaching `total_count` stops.  Returns
the state plus the pages actually requested. -/
def searchGo (O : Oracle) : Nat → Nat → RunState → RunState × List Nat
  | 0, _, st => (st, [])
  | fuel + 1, page, st =>
    match O.search page with
    | .error _ => (st, [page])
    | .ok pg =>
      if pg.items = [] then (st, [page])
      else
        let st1 := pg.items.foldl searchInsert st
        if pg.items.length < 100 ∨ page * 100 ≥ pg.totalCount then (st1, [page])
        else
          let next := searchGo O fuel (page + 1) st1
          (next.1, page :: next.2)

def searchCommitsByAuthor (O : Oracle) (st : RunState) : RunState × List Nat :=
  searchGo O 10 1 st

inductive RepoFilter where
  | all
  | owned
  | forks
  | contributions
deriving DecidableEq, Repr

/-- Repo-filter predicate (src/fetch.js lines 275-280). -/
def filterRepos (repos : List Repo) (filter : RepoFilter) (username : String) :
    List Repo :=
  match filter with
  | .owned => repos.filter (fun r => !r.fork && r.owner == username)
  | .forks => repos.filter (fun r => r.fork)
  | _ => repos

/-- `needsUpdate` (src/fetch.js lines 286-295). -/
def needsUpdate (snaps : List (String × String)) (r : Repo)
    (forceRefresh : Bool) : Bool :=
  match sAlookup snaps r.fullName with
  | none => true
  | some p => p != r.pushedAt || forceRefresh

structure RunOut where
  username : String
  commits : List Commit
  snaps : List (String × String)
deriving DecidableEq, Repr

def fetchAllCommits (O : Oracle) (cache : CacheData) (targetUser : Option String)
    (filter : RepoFilter) (forceRefresh : Bool) : Except ApiErr RunOut :=
  match O.user with
  | .error e => .error e
  | .ok login =>
    let username := targetUser.getD login
    let cache1 := if forceRefresh then ⟨[], []⟩ else cache
    let st0 : RunState :=
      { commitMap := if forceRefresh then [] else cache1.commits.foldl setAssoc []
        repoSet := if forceRefresh then []
          else cache1.commits.foldl (fun s c => insertSetStr s c.repo) []
        snaps := cache1.repos }
    let phase1Res : Except ApiErr RunState :=
      if filter = RepoFilter.contributions then .ok st0
      else
        match O.repos with
        | .error e => .error e
        | .ok allRepos =>
          let repos := filterRepos allRepos filter username
          let reposToUpdate :=
            repos.filter (fun r => needsUpdate cache1.repos r forceRefresh)
          .ok (reposToUpdate.foldl (processRepoModel O) st0)
    match phase1Res with
    | .error e => .error e
    | .ok st1 =>
      let st2 :=
        if filter = RepoFilter.all ∨ filter = RepoFilter.contributions then
          (searchCommitsByAuthor O st1).1
        else st1
      .ok { username := username
            commits := st2.commitMap.map Prod.snd
            snaps := st2.snaps }

theorem sAlookup_none_iff {β : Type} (m : List (String × β)) (k : String) :
    sAlookup m k = none ↔ k ∉ m.map Prod.fst := by
  induction m with
  | nil => simp [sAlookup]
  | cons p t ih =>
    obtain ⟨a, b⟩ := p
    by_cases h : a = k
    · subst h
      simp [sAlookup]
    · simp [sAlookup, h, ih, Ne.symm h]

theorem mem_of_sAlookup {β : Type} {m : List (String × β)} {k : String} {v : β}
    (h : sAlookup m k = some v) : (k, v) ∈ m := by
  induction m with
  | nil => simp [sAlookup] at h
  | cons p t ih =>
    obtain ⟨a, b⟩ := p
    by_cases hak : a = k
    · subst hak
      simp [sAlookup] at h
      simp [h]
    · simp [sAlookup, hak] at h
      exact List.mem_cons_of_mem _ (ih h)

theorem sAlookup_append_some {β : Type} {m : List (String × β)} {k : String}
    {v : β} (l : List (String × β)) (h : sAlookup m k = some v) :
    sAlookup (m ++ l) k = some v := by
  induction m with
  | nil => simp [sAlookup] at h
  | cons p t ih =>
    obtain ⟨a, b⟩ := p
    by_cases hak : a = k
    · subst hak
      simp [sAlookup] at h ⊢
      exact h
    · simp [sAlookup, hak] at h ⊢
      exact ih h

theorem sAlookup_append_of_not_mem {β : Type} {m : List (String × β)}
    {k : String} (l : List (String × β)) (h : k ∉ m.map Prod.fst) :
    sAlookup (m ++ l) k = sAlookup l k := by
  induction m with
  | nil => simp
  | cons p t ih =>
    obtain ⟨a, b⟩ := p
    simp only [List.map_cons, List.mem_cons] at h
    push_neg at h
    simp [sAlookup, Ne.symm h.1, ih h.2]

theorem dedupInsert_keys (m : List (String × Commit)) (c : Commit) :
    (dedupInsert m c).map Prod.fst =
      if c.sha ∈ m.map Prod.fst then m.map Prod.fst
      else m.map Prod.fst ++ [c.sha] := by
  unfold dedupInsert
  split_ifs <;> simp

theorem foldl_dedup_mem_keys (obs : List Commit) (m0 : List (String × Commit))
    (k : String) :
    k ∈ ((obs.foldl dedupInsert m0).map Prod.fst) ↔
      k ∈ m0.map Prod.fst ∨ ∃ c ∈ obs, c.sha = k := by
  induction obs generalizing m0 with
  | nil => simp
  | cons c t ih =>
    rw [List.foldl_cons, ih, List.exists_mem_cons_iff]
    have hstep : k ∈ (dedupInsert m0 c).map Prod.fst ↔
        k ∈ m0.map Prod.fst ∨ c.sha = k := by
      rw [dedupInsert_keys]
      split_ifs with hmem
      · constructor
        · exact Or.inl
        · rintro (h | rfl)
          · exact h
          · exact hmem
      · simp [or_comm, eq_comm]
    rw [hstep]
    tauto

theorem foldl_dedup_keys_nodup (obs : List Commit)
    (m0 : List (String × Commit)) (h : (m0.map Prod.fst).Nodup) :
    ((obs.foldl dedupInsert m0).map Prod.fst).Nodup := by
  induction obs generalizing m0 with
  | nil => exact h
  | cons c t ih =>
    rw [List.foldl_cons]
    refine ih _ ?_
    rw [dedupInsert_keys]
    split_ifs with hmem
    · exact h
    · simp [List.nodup_append, h, hmem]

theorem foldl_dedup_hkey (obs : List Commit) (m0 : List (String × Commit))
    (h : ∀ p ∈ m0, (p.2).sha = p.1) :
    ∀ p ∈ obs.foldl dedupInsert m0, (p.2).sha = p.1 := by
  induction obs generalizing m0 with
  | nil => exact h
  | cons c t ih =>
    rw [List.foldl_cons]
    refine ih _ ?_
    intro p hp
    unfold dedupInsert at hp
    split_ifs at hp with hmem
    · exact h p hp
    · rcases List.mem_append.1 hp with hp | hp
      · exact h p hp
      · simp at hp
        subst hp
        rfl

theorem foldl_dedup_lookup_present (obs : List Commit)
    (m0 : List (String × Commit)) (k : String) (v : Commit)
    (h : sAlookup m0 k = some v) :
    sAlookup (obs.foldl dedupInsert m0) k = some v := by
  induction obs generalizing m0 with
  | nil => exact h
  | cons c t ih =>
    rw [List.foldl_cons]
    refine ih _ ?_
    unfold dedupInsert
    split_ifs with hmem
    · exact h
    · exact sAlookup_append_some _ h

theorem foldl_dedup_lookup_new (obs : List Commit)
    (m0 : List (String × Commit)) (k : String) (h : k ∉ m0.map Prod.fst) :
    sAlookup (obs.foldl dedupInsert m0) k
      = obs.find? (fun c => decide (c.sha = k)) := by
  induction obs generalizing m0 with
  | nil =>
    simp [List.find?]
    exact (sAlookup_none_iff m0 k).2 h
  | cons c t ih =>
    rw [List.foldl_cons]
    by_cases hc : c.sha = k
    · have hnot : c.sha ∉ m0.map Prod.fst := hc ▸ h
      have hins : sAlookup (dedupInsert m0 c) k = some c := by
        unfold dedupInsert
        rw [if_neg hnot]
        rw [sAlookup_append_of_not_mem _ h]
        simp [sAlookup, hc]
      rw [foldl_dedup_lookup_present t _ k c hins]
      simp [List.find?, hc]
    · have hstill : k ∉ (dedupInsert m0 c).map Prod.fst := by
        rw [dedupInsert_keys]
        have hkc : ¬k = c.sha := fun hh => hc hh.symm
        split_ifs
        · exact h
        · simp [h, hkc]
      rw [ih _ hstill]
      simp [List.find?, hc]

theorem count_by_sha (m : List (String × Commit)) (k : String)
    (hkey : ∀ p ∈ m, (p.2).sha = p.1) (hnodup : (m.map Prod.fst).Nodup) :
    (m.map Prod.snd).countP (fun c => decide (c.sha = k))
      = if k ∈ m.map Prod.fst then 1 else 0 := by
  induction m with
  | nil => simp
  | cons p t ih =>
    obtain ⟨a, c⟩ := p
    have hca : c.sha = a := hkey (a, c) (List.mem_cons_self _ _)
    simp only [List.map_cons, List.nodup_cons] at hnodup
    have iht := ih (fun q hq => hkey q (List.mem_cons_of_mem _ hq)) hnodup.2
    by_cases hak : a = k
    · subst hak
      have hkt : a ∉ t.map Prod.fst := hnodup.1
      simp [List.countP_cons, iht, hkt, hca]
    · have hka : ¬k = a := fun hh => hak hh.symm
      have hmem : (k ∈ a :: List.map Prod.fst t) ↔ (k ∈ List.map Prod.fst t) := by
        simp [List.mem_cons, hka]
      simp only [List.map_cons, List.countP_cons, iht, hca]
      rw [if_congr hmem rfl rfl]
      simp [hak]

/-- C2: for every SHA observed at least once in the run's insertion
stream (`obs`: every branch-level and search-level observation, in
program order, inserted over the initial map `m0` the cache
pre-populated), the final commit set holds exactly one commit with
that SHA, and it is the first-seen one: the cached commit if the SHA
was cached, otherwise the first observation; later observations never
replace the stored commit. -/
theorem dedup_first_seen (m0 : List (String × Commit)) (obs : List Commit)
    (sha : String)
    (hkey : ∀ p ∈ m0, (p.2).sha = p.1)
    (hnodup : (m0.map Prod.fst).Nodup)
    (hobs : ∃ c ∈ obs, c.sha = sha) :
    (((obs.foldl dedupInsert m0).map Prod.snd).countP
        (fun c => decide (c.sha = sha))) = 1 ∧
    (sAlookup m0 sha = none →
      sAlookup (obs.foldl dedupInsert m0) sha
        = obs.find? (fun c => decide (c.sha = sha))) ∧
    (∀ c0, sAlookup m0 sha = some c0 →
      sAlookup (obs.foldl dedupInsert m0) sha = some c0) := by
  refine ⟨?_, ?_, ?_⟩
  · rw [count_by_sha _ _ (foldl_dedup_hkey obs m0 hkey)
      (foldl_dedup_keys_nodup obs m0 hnodup)]
    rw [if_pos ((foldl_dedup_mem_keys obs m0 sha).2 (Or.inr hobs))]
  · intro h0
    exact foldl_dedup_lookup_new obs m0 sha ((sAlookup_none_iff m0 sha).1 h0)
  · intro c0 h0
    exact foldl_dedup_lookup_present obs m0 sha c0 h0

/-- Closed instance of `dedup_first_seen`: the SHA "a" observed twice
(different repos) is stored once, as the first-seen record. -/
theorem dedup_first_seen_witness :
    ((([mkCommit "a" "x" 19735, mkCommit "a" "y" 19735].foldl dedupInsert
        []).map Prod.snd).countP (fun c => decide (c.sha = "a"))) = 1 :=
  (dedup_first_seen [] [mkCommit "a" "x" 19735, mkCommit "a" "y" 19735] "a"
    (by simp) (by simp) ⟨mkCommit "a" "x" 19735, by simp, by decide⟩).1

/-- Phase-1 insertion is the dedup-by-SHA primitive on the commit
map (the stored record's sha is the inserted key). -/
theorem phase1Insert_commitMap (rn b : String) (st : RunState) (rc : RawCommit) :
    (phase1Insert rn b st rc).commitMap
      = dedupInsert st.commitMap (storedOf rn b rc) := by
  unfold phase1Insert dedupInsert storedOf
  split_ifs <;> rfl

/-- Search insertion is the same dedup-by-SHA primitive. -/
theorem searchInsert_commitMap (st : RunState) (it : SearchItem) :
    (searchInsert st it).commitMap
      = dedupInsert st.commitMap (storedOfSearch it) := by
  unfold searchInsert dedupInsert storedOfSearch
  split_ifs <;> rfl

theorem searchInsert_preserves (st : RunState) (it : SearchItem) (k : String)
    (v : Commit) (h : sAlookup st.commitMap k = some v) :
    sAlookup (searchInsert st it).commitMap k = some v := by
  unfold searchInsert
  split_ifs
  · exact h
  · exact sAlookup_append_some _ h

theorem searchInsert_snaps (st : RunState) (it : SearchItem) :
    (searchInsert st it).snaps = st.snaps := by
  unfold searchInsert
  split_ifs <;> rfl

theorem foldl_searchInsert_preserves (its : List SearchItem) (st : RunState)
    (k : String) (v : Commit) (h : sAlookup st.commitMap k = some v) :
    sAlookup ((its.foldl searchInsert st).commitMap) k = some v := by
  induction its generalizing st with
  | nil => exact h
  | cons it t ih =>
    rw [List.foldl_cons]
    exact ih _ (searchInsert_preserves st it k v h)

theorem foldl_searchInsert_snaps (its : List SearchItem) (st : RunState) :
    (its.foldl searchInsert st).snaps = st.snaps := by
  induction its generalizing st with
  | nil => rfl
  | cons it t ih =>
    rw [List.foldl_cons, ih, searchInsert_snaps]

theorem searchGo_spec (O : Oracle) :
    ∀ (fuel page : Nat) (st : RunState),
    ((searchGo O fuel page st).2.length ≤ fuel) ∧
    (∀ q ∈ (searchGo O fuel page st).2, page ≤ q ∧ q < page + fuel) ∧
    (∀ p pg, p ∈ (searchGo O fuel page st).2 → O.search p = .ok pg →
      pg.items ≠ [] → (pg.items.length < 100 ∨ p * 100 ≥ pg.totalCount) →
      ∀ q ∈ (searchGo O fuel page st).2, q ≤ p) ∧
    (∀ k v, sAlookup st.commitMap k = some v →
      sAlookup ((searchGo O fuel page st).1.commitMap) k = some v) ∧
    ((searchGo O fuel page st).1.snaps = st.snaps) := by
  intro fuel
  induction fuel with
  | zero =>
    intro page st
    refine ⟨by simp [searchGo], by simp [searchGo], by simp [searchGo],
      fun k v h => h, rfl⟩
  | succ fuel ih =>
    intro page st
    cases hsr : O.search page with
    | error e =>
      have hres : searchGo O (fuel + 1) page st = (st, [page]) := by
        simp [searchGo, hsr]
      rw [hres]
      refine ⟨by simp, by simp, ?_, fun k v h => h, rfl⟩
      intro p pg hp hpg hne hstop q hq
      simp at hp hq
      omega
    | ok pg =>
      by_cases hempty : pg.items = []
      · have hres : searchGo O (fuel + 1) page st = (st, [page]) := by
          simp [searchGo, hsr, hempty]
        rw [hres]
        refine ⟨by simp, by simp, ?_, fun k v h => h, rfl⟩
        intro p pg' hp hpg hne hstop q hq
        simp at hp hq
        omega
      · by_cases hstop : pg.items.length < 100 ∨ page * 100 ≥ pg.totalCount
        · have hres : searchGo O (fuel + 1) page st
              = (pg.items.foldl searchInsert st, [page]) := by
            simp [searchGo, hsr, hempty, hstop]
          rw [hres]
          refine ⟨by simp, by simp, ?_,
            fun k v h => foldl_searchInsert_preserves _ _ _ _ h,
            foldl_searchInsert_snaps _ _⟩
          intro p pg' hp hpg hne hstop' q hq
          simp at hp hq
          omega
        · have hres : searchGo O (fuel + 1) page st
              = ((searchGo O fuel (page + 1) (pg.items.foldl searchInsert st)).1,
                 page :: (searchGo O fuel (page + 1)
                   (pg.items.foldl searchInsert st)).2) := by
            simp [searchGo, hsr, hempty, hstop]
          obtain ⟨ihlen, ihbnd, ihstop, ihpres, ihsnaps⟩ :=
            ih (page + 1) (pg.items.foldl searchInsert st)
          rw [hres]
          refine ⟨?_, ?_, ?_, ?_, ?_⟩
          · simpa using ihlen
          · intro q hq
            rcases List.mem_cons.1 hq with rfl | hq
            · omega
            · have := ihbnd q hq
              omega
          · intro p pg' hp hpg hne hstop' q hq
            rcases List.mem_cons.1 hp with rfl | hp
            · rw [hsr] at hpg
              cases hpg
              exact absurd hstop' hstop
            · rcases List.mem_cons.1 hq with rfl | hq
              · have := ihbnd p hp
                omega
              · exact ihstop p pg' hp hpg hne hstop' q hq
          · intro k v h
            exact ihpres k v (foldl_searchInsert_preserves _ _ _ _ h)
          · rw [ihsnaps, foldl_searchInsert_snaps]

/-- Search item used by the page-10 cutoff example. -/
def exSearchItem (p : Nat) : SearchItem :=
  { sha := String.append "sha" (toString p), message := "m", date := 0,
    repoFullName := "o/r", url := "u" }

/-- Oracle whose search endpoint serves ten full pages of 100 items
with `total_count` 1000 (and would keep answering past the cap). -/
def exSearchOracle : Oracle :=
  { user := .ok "u", repos := .ok [], branches := fun _ => .ok [],
    commits := fun _ _ => .ok [],
    search := fun p =>
      if p ≤ 12 then .ok ⟨List.replicate 100 (exSearchItem p), 1000⟩
      else .error (.httpError 422 "") }

/-- C8: the search phase requests at most 10 pages, all numbered
1..10; as soon as a requested page comes back ok with fewer than 100
items or with `page·100 ≥ total_count`, no later page is requested;
any error — in particular HTTP 422 — ends the phase by returning the
state built so far (the loop's type is total: errors are caught, never
propagated) with every previously collected commit still present; and
on an oracle serving exactly 100 items on each page with
`total_count = 1000`, the phase requests exactly pages 1..10 and
stops. -/
theorem search_bounded_graceful (O : Oracle) (st : RunState) :
    ((searchCommitsByAuthor O st).2.length ≤ 10) ∧
    (∀ q ∈ (searchCommitsByAuthor O st).2, 1 ≤ q ∧ q ≤ 10) ∧
    (∀ p pg, p ∈ (searchCommitsByAuthor O st).2 → O.search p = .ok pg →
      pg.items ≠ [] → (pg.items.length < 100 ∨ p * 100 ≥ pg.totalCount) →
      ∀ q ∈ (searchCommitsByAuthor O st).2, q ≤ p) ∧
    (∀ k v, sAlookup st.commitMap k = some v →
      sAlookup ((searchCommitsByAuthor O st).1.commitMap) k = some v) ∧
    ((searchCommitsByAuthor exSearchOracle ⟨[], [], []⟩).2
      = [1, 2, 3, 4, 5, 6, 7, 8, 9, 10]) := by
  obtain ⟨hlen, hbnd, hstop, hpres, _⟩ := searchGo_spec O 10 1 st
  refine ⟨hlen, ?_, hstop, hpres, by decide⟩
  intro q hq
  have := hbnd q hq
  omega

/-- Closed instance of `search_bounded_graceful`: the page-10 cutoff
example itself. -/
theorem search_bounded_graceful_witness :
    (searchCommitsByAuthor exSearchOracle ⟨[], [], []⟩).2
      = [1, 2, 3, 4, 5, 6, 7, 8, 9, 10] :=
  (search_bounded_graceful exSearchOracle ⟨[], [], []⟩).2.2.2.2

def exceptIsOk {eps alpha : Type} : Except eps alpha → Bool
  | .ok _ => true
  | .error _ => false

/-- Oracle failing with HTTP 500 at branch enumeration, commit fetch
and search. -/
def oC4 : Oracle :=
  { user := .ok "u", repos := .ok [⟨"a/b", "p1", false, "u"⟩],
    branches := fun _ => .error (.httpError 500 "boom"),
    commits := fun _ _ => .error (.httpError 500 "boom"),
    search := fun _ => .error (.httpError 500 "boom") }

/-- C4 counterexample: an HTTP 500 — not one of the claim's excepted
statuses — striking branch enumeration (and another striking search)
is swallowed: the run completes with `.ok` and an empty result instead
of surfacing the error and aborting. -/
theorem nonfatal_swallow_counterexample :
    oC4.branches "a/b" = .error (.httpError 500 "boom") ∧
    oC4.search 1 = .error (.httpError 500 "boom") ∧
    fetchAllCommits oC4 ⟨[], []⟩ none RepoFilter.all false
      = .ok ⟨"u", [], []⟩ := by
  refine ⟨rfl, rfl, rfl⟩

/-- C4 (amended): `githubFetch` turns any non-2xx response other than
403/429 into an error carrying the HTTP status and body text; that
error aborts the run when it strikes user resolution or repository
listing; but errors during branch enumeration and per-branch commit
fetching are caught per repository / per branch (the unit is skipped)
and errors during the search phase end it early — with user and
repository listing successful, the run always returns `.ok`. -/
theorem nonfatal_errors_swallowed_amended
    (script : Nat → Resp) (now : Int) (O : Oracle) (cache : CacheData)
    (tu : Option String) (filter : RepoFilter) (fr : Bool)
    (e : ApiErr) (login : String) (rl : List Repo) :
    ((script 1).status ≠ 403 → (script 1).status ≠ 429 →
      ¬(200 ≤ (script 1).status ∧ (script 1).status < 300) →
      githubFetchModel script now
        = (FetchOutcome.apiError (script 1).status (script 1).body, [])) ∧
    (O.user = .error e → fetchAllCommits O cache tu filter fr = .error e) ∧
    (O.user = .ok login → O.repos = .error e →
      filter ≠ RepoFilter.contributions →
      fetchAllCommits O cache tu filter fr = .error e) ∧
    (O.user = .ok login →
      (filter = RepoFilter.contributions ∨ O.repos = .ok rl) →
      exceptIsOk (fetchAllCommits O cache tu filter fr) = true) := by
  refine ⟨?_, ?_, ?_, ?_⟩
  · intro h1 h2 h3
    simp only [githubFetchModel, githubFetchGo]
    rw [if_neg (fun h => h.elim h1 h2), if_neg h3]
  · intro hu
    simp [fetchAllCommits, hu]
  · intro hu hr hf
    simp [fetchAllCommits, hu, hr, hf]
  · intro hu hd
    by_cases hf : filter = RepoFilter.contributions
    · simp [fetchAllCommits, hu, hf, exceptIsOk]
    · rcases hd with hf' | hr
      · exact absurd hf' hf
      · simp [fetchAllCommits, hu, hf, hr, exceptIsOk]

/-- Oracle whose user resolution fails with 401. -/
def oC4b : Oracle :=
  { user := .error (.httpError 401 "bad"), repos := .ok [],
    branches := fun _ => .ok [], commits := fun _ _ => .ok [],
    search := fun _ => .ok ⟨[], 0⟩ }

/-- Closed instance of `nonfatal_errors_swallowed_amended`: a failed
user resolution aborts the run with the carried error. -/
theorem nonfatal_errors_swallowed_amended_witness :
    fetchAllCommits oC4b ⟨[], []⟩ none RepoFilter.all false
      = .error (.httpError 401 "bad") :=
  (nonfatal_errors_swallowed_amended (fun _ => ⟨200, none, none, ""⟩) 0 oC4b
    ⟨[], []⟩ none RepoFilter.all false (.httpError 401 "bad") "u" []).2.1 rfl

theorem sAlookup_setSnap_other (m : List (String × String)) (k v k' : String)
    (h : k' ≠ k) : sAlookup (setSnap m k v) k' = sAlookup m k' := by
  induction m with
  | nil => simp [setSnap, sAlookup, Ne.symm h]
  | cons p t ih =>
    obtain ⟨a, b⟩ := p
    by_cases hak : a = k
    · subst hak
      simp [setSnap, sAlookup, Ne.symm h]
    · by_cases hak' : a = k'
      · subst hak'
        simp [setSnap, hak, sAlookup]
      · simp [setSnap, hak, sAlookup, hak', ih]

theorem phase1Insert_preserves (rn b : String) (st : RunState) (rc : RawCommit)
    (k : String) (v : Commit) (h : sAlookup st.commitMap k = some v) :
    sAlookup (phase1Insert rn b st rc).commitMap k = some v := by
  unfold phase1Insert
  split_ifs
  · exact h
  · exact sAlookup_append_some _ h

theorem phase1Insert_snaps (rn b : String) (st : RunState) (rc : RawCommit) :
    (phase1Insert rn b st rc).snaps = st.snaps := by
  unfold phase1Insert
  split_ifs <;> rfl

theorem branchFold_preserves (O : Oracle) (rn : String) (bs : List String)
    (st : RunState) (k : String) (v : Commit)
    (h : sAlookup st.commitMap k = some v) :
    sAlookup ((bs.foldl
      (fun st b =>
        match O.commits rn b with
        | .error _ => st
        | .ok rcs => rcs.foldl (phase1Insert rn b) st) st).commitMap) k
      = some v := by
  induction bs generalizing st with
  | nil => exact h
  | cons b t ih =>
    rw [List.foldl_cons]
    refine ih _ ?_
    cases hc : O.commits rn b with
    | error e => simpa [hc] using h
    | ok rcs =>
      simp only [hc]
      clear hc
      induction rcs generalizing st with
      | nil => exact h
      | cons rc trc ihr =>
        rw [List.foldl_cons]
        exact ihr _ (phase1Insert_preserves rn b st rc k v h)

theorem branchFold_snaps (O : Oracle) (rn : String) (bs : List String)
    (st : RunState) :
    ((bs.foldl
      (fun st b =>
        match O.commits rn b with
        | .error _ => st
        | .ok rcs => rcs.foldl (phase1Insert rn b) st) st).snaps)
      = st.snaps := by
  induction bs generalizing st with
  | nil => rfl
  | cons b t ih =>
    rw [List.foldl_cons, ih]
    cases hc : O.commits rn b with
    | error e => rfl
    | ok rcs =>
      simp only []
      clear hc
      induction rcs generalizing st with
      | nil => rfl
      | cons rc trc ihr =>
        rw [List.foldl_cons, ihr, phase1Insert_snaps]

theorem processRepoModel_preserves (O : Oracle) (st : RunState) (r : Repo)
    (k : String) (v : Commit) (h : sAlookup st.commitMap k = some v) :
    sAlookup ((processRepoModel O st r).commitMap) k = some v := by
  unfold processRepoModel
  cases hb : O.branches r.fullName with
  | error e => exact h
  | ok bs =>
    simp only []
    exact branchFold_preserves O r.fullName bs st k v h

theorem processRepoModel_snaps_other (O : Oracle) (st : RunState) (r : Repo)
    (n : String) (h : r.fullName ≠ n) :
    sAlookup ((processRepoModel O st r).snaps) n = sAlookup st.snaps n := by
  unfold processRepoModel
  cases hb : O.branches r.fullName with
  | error e => rfl
  | ok bs =>
    simp only []
    rw [sAlookup_setSnap_other _ _ _ _ (Ne.symm h), branchFold_snaps]

theorem repoFold_preserves (O : Oracle) (repos : List Repo) (st : RunState)
    (k : String) (v : Commit) (h : sAlookup st.commitMap k = some v) :
    sAlookup ((repos.foldl (processRepoModel O) st).commitMap) k = some v := by
  induction repos generalizing st with
  | nil => exact h
  | cons r t ih =>
    rw [List.foldl_cons]
    exact ih _ (processRepoModel_preserves O st r k v h)

theorem repoFold_snaps_other (O : Oracle) (repos : List Repo) (st : RunState)
    (n : String) (h : ∀ r ∈ repos, r.fullName ≠ n) :
    sAlookup ((repos.foldl (processRepoModel O) st).snaps) n
      = sAlookup st.snaps n := by
  induction repos generalizing st with
  | nil => rfl
  | cons r t ih =>
    rw [List.foldl_cons, ih _ (fun r' hr' => h r' (List.mem_cons_of_mem _ hr')),
      processRepoModel_snaps_other O st r n (h r (List.mem_cons_self _ _))]

theorem processRepoModel_congr (O O' : Oracle) (name : String)
    (hb : ∀ n, n ≠ name → O.branches n = O'.branches n)
    (hc : ∀ n b, n ≠ name → O.commits n b = O'.commits n b)
    (r : Repo) (hne : r.fullName ≠ name) (st : RunState) :
    processRepoModel O st r = processRepoModel O' st r := by
  unfold processRepoModel
  rw [hb _ hne]
  cases O'.branches r.fullName with
  | error e => rfl
  | ok bs =>
    simp only []
    have hf : ∀ (st' : RunState) b,
        (match O.commits r.fullName b with
          | .error _ => st'
          | .ok rcs => rcs.foldl (phase1Insert r.fullName b) st')
        = (match O'.commits r.fullName b with
          | .error _ => st'
          | .ok rcs => rcs.foldl (phase1Insert r.fullName b) st') := by
      intro st' b
      rw [hc _ b hne]
    have hfold : ∀ (bs' : List String) (st' : RunState),
        (bs'.foldl (fun st b =>
          match O.commits r.fullName b with
          | .error _ => st
          | .ok rcs => rcs.foldl (phase1Insert r.fullName b) st) st')
        = (bs'.foldl (fun st b =>
          match O'.commits r.fullName b with
          | .error _ => st
          | .ok rcs => rcs.foldl (phase1Insert r.fullName b) st) st') := by
      intro bs' 
      induction bs' with
      | nil => intro st'; rfl
      | cons b t ih =>
        intro st'
        rw [List.foldl_cons, List.foldl_cons, hf st' b, ih]
    rw [hfold bs st]

theorem repoFold_congr (O O' : Oracle) (name : String)
    (hb : ∀ n, n ≠ name → O.branches n = O'.branches n)
    (hc : ∀ n b, n ≠ name → O.commits n b = O'.commits n b)
    (repos : List Repo) (hne : ∀ r ∈ repos, r.fullName ≠ name) (st : RunState) :
    repos.foldl (processRepoModel O) st = repos.foldl (processRepoModel O') st := by
  induction repos generalizing st with
  | nil => rfl
  | cons r t ih =>
    rw [List.foldl_cons, List.foldl_cons,
      processRepoModel_congr O O' name hb hc r (hne r (List.mem_cons_self _ _)) st,
      ih (fun r' hr' => hne r' (List.mem_cons_of_mem _ hr'))]

theorem searchGo_congr (O O' : Oracle) (h : O.search = O'.search) :
    ∀ (fuel page : Nat) (st : RunState),
      searchGo O fuel page st = searchGo O' fuel page st := by
  intro fuel
  induction fuel with
  | zero => intro page st; rfl
  | succ fuel ih =>
    intro page st
    show (match O.search page with
      | .error _ => (st, [page])
      | .ok pg => _) = _
    rw [searchGo, ← h]
    cases O.search page with
    | error e => rfl
    | ok pg =>
      simp only []
      split_ifs
      · rfl
      · rfl
      · rw [ih]

theorem sAlookup_setAssoc_self (m : List (String × Commit)) (c : Commit) :
    sAlookup (setAssoc m c) c.sha = some c := by
  induction m with
  | nil => simp [setAssoc, sAlookup]
  | cons p t ih =>
    obtain ⟨a, b⟩ := p
    by_cases hak : a = c.sha
    · subst hak
      simp [setAssoc, sAlookup]
    · simp [setAssoc, hak, sAlookup, ih]

theorem sAlookup_setAssoc_other (m : List (String × Commit)) (c : Commit)
    (k : String) (h : k ≠ c.sha) :
    sAlookup (setAssoc m c) k = sAlookup m k := by
  induction m with
  | nil => simp [setAssoc, sAlookup, Ne.symm h]
  | cons p t ih =>
    obtain ⟨a, b⟩ := p
    by_cases hak : a = c.sha
    · subst hak
      simp [setAssoc, sAlookup, Ne.symm h]
    · simp [setAssoc, hak, sAlookup, ih]

theorem foldl_setAssoc_not_mem (l : List Commit) (m : List (String × Commit))
    (k : String) (h : ∀ c ∈ l, c.sha ≠ k) :
    sAlookup (l.foldl setAssoc m) k = sAlookup m k := by
  induction l generalizing m with
  | nil => rfl
  | cons c t ih =>
    rw [List.foldl_cons, ih _ (fun c' hc' => h c' (List.mem_cons_of_mem _ hc')),
      sAlookup_setAssoc_other m c k
        (Ne.symm (h c (List.mem_cons_self _ _)))]

theorem foldl_setAssoc_lookup (l : List Commit) (m : List (String × Commit))
    (c : Commit) (hc : c ∈ l) (hnodup : (l.map Commit.sha).Nodup) :
    sAlookup (l.foldl setAssoc m) c.sha = some c := by
  induction l generalizing m with
  | nil => simp at hc
  | cons d t ih =>
    simp only [List.map_cons, List.nodup_cons] at hnodup
    rcases List.mem_cons.1 hc with rfl | hc
    · rw [List.foldl_cons,
        foldl_setAssoc_not_mem t _ c.sha
          (fun c' hc' heq => hnodup.1 (heq ▸ List.mem_map.2 ⟨c', hc', rfl⟩)),
        sAlookup_setAssoc_self]
    · rw [List.foldl_cons]
      exact ih _ hc hnodup.2

theorem filterRepos_subset (rl : List Repo) (f : RepoFilter) (u : String) :
    ∀ x ∈ filterRepos rl f u, x ∈ rl := by
  intro x hx
  cases f with
  | owned => exact (List.mem_filter.1 hx).1
  | forks => exact (List.mem_filter.1 hx).1
  | all => exact hx
  | contributions => exact hx

/-- The state after cache pre-population (src/fetch.js lines 257-267,
`forceRefresh = false`). -/
def initState (cache : CacheData) : RunState :=
  { commitMap := cache.commits.foldl setAssoc []
    repoSet := cache.commits.foldl (fun s c => insertSetStr s c.repo) []
    snaps := cache.repos }

/-- The state after Phase 1 (`forceRefresh = false`). -/
def phase1State (O : Oracle) (cache : CacheData) (username : String)
    (filter : RepoFilter) (rl : List Repo) : RunState :=
  if filter = RepoFilter.contributions then initState cache
  else ((filterRepos rl filter username).filter
      (fun r' => needsUpdate cache.repos r' false)).foldl
    (processRepoModel O) (initState cache)

/-- The state after Phase 2 (`forceRefresh = false`). -/
def finalState (O : Oracle) (cache : CacheData) (username : String)
    (filter : RepoFilter) (rl : List Repo) : RunState :=
  if filter = RepoFilter.all ∨ filter = RepoFilter.contributions then
    (searchCommitsByAuthor O (phase1State O cache username filter rl)).1
  else phase1State O cache username filter rl

theorem fetchAllCommits_ok_shape (O : Oracle) (cache : CacheData)
    (tu : Option String) (filter : RepoFilter) (login : String) (rl : List Repo)
    (hu : O.user = .ok login) (hr : O.repos = .ok rl) :
    fetchAllCommits O cache tu filter false =
      .ok { username := tu.getD login
            commits := (finalState O cache (tu.getD login) filter rl).commitMap.map
              Prod.snd
            snaps := (finalState O cache (tu.getD login) filter rl).snaps } := by
  by_cases hf : filter = RepoFilter.contributions <;>
    simp [fetchAllCommits, hu, hr, hf, finalState, phase1State, initState]

/-- Two oracles that may differ only in the branch and commit
endpoints of the repository `name`. -/
def agreeExceptRepo (O O' : Oracle) (name : String) : Prop :=
  O.user = O'.user ∧ O.repos = O'.repos ∧ O.search = O'.search ∧
  (∀ n, n ≠ name → O.branches n = O'.branches n) ∧
  (∀ n b, n ≠ name → O.commits n b = O'.commits n b)

/-- C7: with `forceRefresh = false` and a listed repository `r` whose
cached snapshot equals its current push timestamp (and no listed repo
of the same full name has a different push timestamp), the run result
does not depend on the branch/commit endpoints of `r` at all — no such
request is issued for it; `r`'s snapshot survives unchanged, and every
cached commit appears unchanged in the final result. -/
theorem cache_skip (O O' : Oracle) (cache : CacheData) (tu : Option String)
    (filter : RepoFilter) (r : Repo) (login : String) (rl : List Repo)
    (hu : O.user = .ok login) (hr : O.repos = .ok rl)
    (_hmem : r ∈ rl)
    (hsnap : sAlookup cache.repos r.fullName = some r.pushedAt)
    (hcol : ∀ r' ∈ rl, r'.fullName = r.fullName → r'.pushedAt = r.pushedAt)
    (hagree : agreeExceptRepo O O' r.fullName)
    (hsha : (cache.commits.map Commit.sha).Nodup) :
    fetchAllCommits O cache tu filter false
      = fetchAllCommits O' cache tu filter false ∧
    (∀ out, fetchAllCommits O cache tu filter false = .ok out →
      sAlookup out.snaps r.fullName = some r.pushedAt ∧
      ∀ c ∈ cache.commits, c ∈ out.commits) := by
  obtain ⟨hau, har, has, hab, hac⟩ := hagree
  have hu' : O'.user = .ok login := hau ▸ hu
  have hr' : O'.repos = .ok rl := har ▸ hr
  have hnotin : ∀ r' ∈ (filterRepos rl filter (tu.getD login)).filter
      (fun r'' => needsUpdate cache.repos r'' false),
      r'.fullName ≠ r.fullName := by
    intro r' hr'mem heq
    obtain ⟨hmem', hneed⟩ := List.mem_filter.1 hr'mem
    have hrl : r' ∈ rl := filterRepos_subset rl filter (tu.getD login) r' hmem'
    have hpa : r'.pushedAt = r.pushedAt := hcol r' hrl heq
    simp [needsUpdate, heq, hsnap, hpa] at hneed
  have hps : phase1State O cache (tu.getD login) filter rl
      = phase1State O' cache (tu.getD login) filter rl := by
    unfold phase1State
    split_ifs with hf
    · rfl
    · exact repoFold_congr O O' r.fullName hab hac _ hnotin _
  have hfs : finalState O cache (tu.getD login) filter rl
      = finalState O' cache (tu.getD login) filter rl := by
    unfold finalState
    rw [hps]
    split_ifs with hf
    · unfold searchCommitsByAuthor
      rw [searchGo_congr O O' has]
    · rfl
  refine ⟨?_, ?_⟩
  · rw [fetchAllCommits_ok_shape O cache tu filter login rl hu hr,
      fetchAllCommits_ok_shape O' cache tu filter login rl hu' hr', hfs]
  · intro out hout
    rw [fetchAllCommits_ok_shape O cache tu filter login rl hu hr] at hout
    injection hout with hout
    subst hout
    have hsn1 : sAlookup (phase1State O cache (tu.getD login) filter rl).snaps
        r.fullName = some r.pushedAt := by
      unfold phase1State
      split_ifs
      · exact hsnap
      · rw [repoFold_snaps_other O _ _ _ hnotin]
        exact hsnap
    constructor
    · show sAlookup (finalState O cache (tu.getD login) filter rl).snaps
        r.fullName = some r.pushedAt
      unfold finalState
      split_ifs
      · unfold searchCommitsByAuthor
        rw [(searchGo_spec O 10 1 _).2.2.2.2]
        exact hsn1
      · exact hsn1
    · intro c hc
      have h0 : sAlookup (initState cache).commitMap c.sha = some c :=
        foldl_setAssoc_lookup _ _ c hc hsha
      have h1 : sAlookup (phase1State O cache (tu.getD login) filter
          rl).commitMap c.sha = some c := by
        unfold phase1State
        split_ifs
        · exact h0
        · exact repoFold_preserves O _ _ _ _ h0
      have h2 : sAlookup (finalState O cache (tu.getD login) filter
          rl).commitMap c.sha = some c := by
        unfold finalState
        split_ifs
        · exact (searchGo_spec O 10 1 _).2.2.2.1 _ _ h1
        · exact h1
      show c ∈ (finalState O cache (tu.getD login) filter rl).commitMap.map
        Prod.snd
      exact List.mem_map.2 ⟨(c.sha, c), mem_of_sAlookup h2, rfl⟩

/-- Repository, cache and oracles of the cache-skip closed instance:
`O` and `Ob` differ exactly in the branch endpoint of the cached
repository. -/
def rW : Repo := ⟨"a/b", "p1", false, "u"⟩

def cacheW : CacheData := ⟨[("a/b", "p1")], [mkCommit "w" "a/b" 19523]⟩

def oW : Oracle :=
  { user := .ok "u", repos := .ok [rW], branches := fun _ => .ok [],
    commits := fun _ _ => .ok [], search := fun _ => .error (.httpError 422 "") }

def oWb : Oracle :=
  { user := .ok "u", repos := .ok [rW],
    branches := fun n => if n = "a/b" then .error (.httpError 500 "x") else .ok []
    commits := fun _ _ => .ok [], search := fun _ => .error (.httpError 422 "") }

/-- Closed instance of `cache_skip`: the run result is identical
whether the skipped repository's branch endpoint succeeds or fails,
because it is never queried. -/
theorem cache_skip_witness :
    fetchAllCommits oW cacheW none RepoFilter.all false
      = fetchAllCommits oWb cacheW none RepoFilter.all false :=
  (cache_skip oW oWb cacheW none RepoFilter.all rW "u" [rW] rfl rfl
    (by decide)
    (by decide)
    (fun r' hr' heq => by
      simp at hr'
      subst hr'
      rfl)
    ⟨rfl, rfl, rfl,
      fun n hn => by
        have hn' : ¬(n = "a/b") := hn
        simp [oW, oWb, hn'],
      fun n b hn => rfl⟩
    (by decide)).1

/-- C10: the contribution level is always one of 0,1,2,3,4, and it is 0
exactly when the count is 0 — a day with at least one commit is never
rendered at the empty level. -/
theorem contributionLevel_range_zero_iff (count maxDaily : Nat) :
    getContributionLevel count maxDaily ∈ [0, 1, 2, 3, 4] ∧
    (getContributionLevel count maxDaily = 0 ↔ count = 0) := by
  unfold getContributionLevel
  constructor
  · split_ifs <;> simp
  · split_ifs <;> simp_all

end GitTimeline
